import Mathlib

/-! SomaRhythm: the equalizer and the field validation of src/script.js

A shallow embedding of the canvas equalizer of `src/script.js` (`initEqualizer`,
lines 196-278): the bar collection, `initBars`, `resizeCanvas`, `animate`, the
debounced `resize` listener and the `IntersectionObserver` callback; and of
`validateField` (lines 417-457) with its regular expressions.

Conventions of the embedding.
* Numbers are rationals (`ℚ`). Scheduling, bar generation and the height
  bound use exact arithmetic (`animate`, `stepBar`); the arithmetic of a frame
  is also given with the rounding of IEEE 754 binary64 (`animate64`,
  `stepBar64`, `fl`), and what is said about the values a frame computes is
  proved on that version.
* `Math.random()` is a stream `rand : ℕ → ℚ` read through a cursor `rng`
  stored in the state; every call reads `rand rng` and advances the cursor.
* `requestAnimationFrame` / `cancelAnimationFrame` and `setTimeout` /
  `clearTimeout` are queues of pending handles with a fresh-handle counter.
* The closure variables of `initEqualizer` (`bars`, `animationId`,
  `resizeTimeout`) are fields of `EqState`.
-/

namespace SomaRhythm

/-- One equalizer bar: the object literal pushed by `initBars`. -/
structure Bar where
  x : ℚ
  height : ℚ
  targetHeight : ℚ
  speed : ℚ
  hue : ℚ
deriving DecidableEq

/-- A rectangle painted by `ctx.fillRect(x, y, w, h)`. -/
structure Rect where
  x : ℚ
  y : ℚ
  w : ℚ
  h : ℚ
deriving DecidableEq

/-- What the handlers read from the page when they run: `canvas.offsetWidth`,
`canvas.offsetHeight` and `window.devicePixelRatio`. -/
structure Layout where
  offsetWidth : ℚ
  offsetHeight : ℚ
  devicePixelRatio : ℚ
deriving DecidableEq

/-- The canvas element as `initEqualizer` sees it: its layout, and whether
`canvas.getContext('2d')` yields a context (`false`: it returns `null`). -/
structure CanvasEl where
  layout : Layout
  context2d : Bool
deriving DecidableEq

/-- Errors a JavaScript call can throw in this model. -/
inductive JsError where
  | typeError
deriving DecidableEq

/-- The closure state of `initEqualizer` together with the browser state it
acts on. `animateCalls` and `resizeCalls` count the invocations of `animate`
and `resizeCanvas`. -/
structure EqState where
  bars : List Bar
  animationId : Option Nat
  frameQueue : List Nat
  nextFrameHandle : Nat
  resizeTimeout : Option Nat
  timerQueue : List Nat
  nextTimerHandle : Nat
  rng : Nat
  canvasWidth : ℚ
  canvasHeight : ℚ
  ctxScale : ℚ
  painted : List Rect
  resizeListener : Bool
  observing : Bool
  animateCalls : Nat
  resizeCalls : Nat
deriving DecidableEq

/-- The page before `initEqualizer` runs: default 300x150 canvas backing
store, nothing scheduled, no handler registered. -/
def EqState.blank : EqState :=
  { bars := [], animationId := none, frameQueue := [], nextFrameHandle := 1,
    resizeTimeout := none, timerQueue := [], nextTimerHandle := 1, rng := 0,
    canvasWidth := 300, canvasHeight := 150, ctxScale := 1, painted := [],
    resizeListener := false, observing := false, animateCalls := 0,
    resizeCalls := 0 }

/-- Loop bound of `initBars`: `Math.floor(canvas.offsetWidth / 8)`. -/
def barCount (L : Layout) : ℤ := Int.floor (L.offsetWidth / 8)

/-- The object pushed at iteration `i` of the loop of `initBars`; the three
`Math.random()` calls are evaluated in source order (height, targetHeight,
speed), starting at cursor `rng`. -/
def mkBar (rand : Nat → ℚ) (count : ℤ) (rng : Nat) (i : Nat) : Bar :=
  { x := (i : ℚ) * 8,
    height := rand rng * 50 + 20,
    targetHeight := rand (rng + 1) * 100 + 30,
    speed := rand (rng + 2) * 2 + 1,
    hue := 260 + ((i : ℚ) / (count : ℚ)) * 60 }

/-- The function `initBars`: `bars = []`, then one push for each `i` with
`0 <= i < barCount`. -/
def initBars (L : Layout) (rand : Nat → ℚ) (s : EqState) : EqState :=
  let n := (barCount L).toNat
  { s with
    bars := (List.range n).map (fun i => mkBar rand (barCount L) (s.rng + 3 * i) i),
    rng := s.rng + 3 * n }

/-- The function `resizeCanvas` with a non-null context: set the backing store
size (which resets the context transform), scale the context by the pixel
ratio, call `initBars`. -/
def resizeCanvas (L : Layout) (rand : Nat → ℚ) (s : EqState) : EqState :=
  initBars L rand
    { s with
      canvasWidth := L.offsetWidth * L.devicePixelRatio,
      canvasHeight := L.offsetHeight * L.devicePixelRatio,
      ctxScale := L.devicePixelRatio,
      resizeCalls := s.resizeCalls + 1 }

/-- The height update of one bar inside `bars.forEach` of `animate`
(lines 233-236), for drawable height `H`, in exact arithmetic (`stepBar64` is
the same update with binary64 rounding). Returns the bar and the cursor. -/
def stepBar (H : ℚ) (rand : Nat → ℚ) (rng : Nat) (bar : Bar) : Bar × Nat :=
  let reroll : Bool := decide (|bar.height - bar.targetHeight| < 1)
  let target := if reroll then rand rng * (H * 0.6) + 20 else bar.targetHeight
  let rng1 := if reroll then rng + 1 else rng
  ({ bar with targetHeight := target,
              height := bar.height + (target - bar.height) * 0.05 }, rng1)

/-- The `bars.forEach` of `animate`: bars are visited in order, the random
cursor is threaded through. -/
def animateBars (H : ℚ) (rand : Nat → ℚ) : Nat → List Bar → List Bar × Nat
  | rng, [] => ([], rng)
  | rng, bar :: rest =>
    let r := stepBar H rand rng bar
    let rs := animateBars H rand r.2 rest
    (r.1 :: rs.1, rs.2)

/-- The rectangle `animate` paints for a bar after its update:
`ctx.fillRect(bar.x, height - bar.height, 5, bar.height)`. -/
def barRect (H : ℚ) (bar : Bar) : Rect :=
  { x := bar.x, y := H - bar.height, w := 5, h := bar.height }

/-- The function `animate`: clear, update and paint every bar, then
`animationId = requestAnimationFrame(animate)`. -/
def animate (L : Layout) (rand : Nat → ℚ) (s : EqState) : EqState :=
  let r := animateBars L.offsetHeight rand s.rng s.bars
  { s with
    bars := r.1,
    rng := r.2,
    painted := r.1.map (barRect L.offsetHeight),
    animationId := some s.nextFrameHandle,
    frameQueue := s.frameQueue ++ [s.nextFrameHandle],
    nextFrameHandle := s.nextFrameHandle + 1,
    animateCalls := s.animateCalls + 1 }

/-- The call `cancelAnimationFrame(animationId)`: the callback with that handle,
if it is still pending, is removed; `undefined` cancels nothing. -/
def cancelAnimationFrame (s : EqState) : EqState :=
  match s.animationId with
  | none => s
  | some h => { s with frameQueue := s.frameQueue.filter (fun k => k != h) }

/-- The `resize` listener (lines 261-264): `clearTimeout(resizeTimeout)` then
`resizeTimeout = setTimeout(resizeCanvas, 200)`. -/
def onResize (s : EqState) : EqState :=
  let cleared :=
    match s.resizeTimeout with
    | none => s.timerQueue
    | some h => s.timerQueue.filter (fun k => k != h)
  { s with
    timerQueue := cleared ++ [s.nextTimerHandle],
    resizeTimeout := some s.nextTimerHandle,
    nextTimerHandle := s.nextTimerHandle + 1 }

/-- The `IntersectionObserver` callback (lines 267-275): for each entry in
order, `animate()` when `isIntersecting`, else
`cancelAnimationFrame(animationId)`. -/
def onIntersection (L : Layout) (rand : Nat → ℚ) (entries : List Bool)
    (s : EqState) : EqState :=
  entries.foldl
    (fun st isIntersecting =>
      if isIntersecting then animate L rand st else cancelAnimationFrame st) s

/-- The function `initEqualizer` run on page state `s`. A missing canvas
returns at once. With a canvas whose `getContext('2d')` is `null`,
`resizeCanvas` throws at `ctx.scale` (line 207). -/
def initEqualizer (rand : Nat → ℚ) (canvas : Option CanvasEl) (s : EqState) :
    Except JsError EqState :=
  match canvas with
  | none => .ok s
  | some c =>
    if c.context2d then
      let s1 := resizeCanvas c.layout rand s
      let s2 := animate c.layout rand s1
      .ok { s2 with resizeListener := true, observing := true }
    else
      .error JsError.typeError

/-- What the browser can deliver to a started equalizer. -/
inductive Event where
  | frame (handle : Nat)
  | resize
  | timer (handle : Nat)
  | intersection (entries : List Bool)
deriving DecidableEq

/-- One browser event delivered with the page laid out as `L`. A frame or
timer event runs its callback only when that handle is pending, and removes
it from the queue first. -/
def step (rand : Nat → ℚ) (L : Layout) (s : EqState) : Event → EqState
  | .frame h =>
    if h ∈ s.frameQueue then
      animate L rand { s with frameQueue := s.frameQueue.filter (fun k => k != h) }
    else s
  | .resize => if s.resizeListener then onResize s else s
  | .timer h =>
    if h ∈ s.timerQueue then
      resizeCanvas L rand { s with timerQueue := s.timerQueue.filter (fun k => k != h) }
    else s
  | .intersection entries =>
    if s.observing then onIntersection L rand entries s else s

/-- A run: events delivered one after the other, each with its layout. -/
def run (rand : Nat → ℚ) (s : EqState) (evs : List (Layout × Event)) : EqState :=
  evs.foldl (fun st le => step rand le.1 st le.2) s

/-- Visibility-enter: the observer callback with one intersecting entry. -/
def visibilityEnter : Event := .intersection [true]

/-- Visibility-exit: the observer callback with one non-intersecting entry. -/
def visibilityExit : Event := .intersection [false]

/-- States of a started equalizer: the result of a successful
`initEqualizer` on a blank page, then any events. -/
inductive Reachable (rand : Nat → ℚ) : EqState → Prop where
  | init (c : CanvasEl) (s : EqState) :
      initEqualizer rand (some c) EqState.blank = .ok s → Reachable rand s
  | step (L : Layout) (e : Event) (s : EqState) :
      Reachable rand s → Reachable rand (step rand L s e)

/-- Frames run one after the other, each with its own layout. -/
def runFrames (rand : Nat → ℚ) (Ls : List Layout) (s : EqState) : EqState :=
  Ls.foldl (fun st L => animate L rand st) s

/-- Whether an event is a timer expiry. -/
def Event.isTimer : Event → Bool
  | .timer _ => true
  | _ => false

/-- Exactly one timer is pending, and it is the one `resizeTimeout` names. -/
def TimerPending (s : EqState) (h : Nat) : Prop :=
  s.timerQueue = [h] ∧ s.resizeTimeout = some h

/-- Height and target of a bar both lie in `[0, M]`. -/
def BarOk (M : ℚ) (b : Bar) : Prop :=
  0 ≤ b.height ∧ b.height ≤ M ∧ 0 ≤ b.targetHeight ∧ b.targetHeight ≤ M

instance (M : ℚ) (b : Bar) : Decidable (BarOk M b) := by
  unfold BarOk; infer_instance

/-- At most one timer is pending, and it is the one `resizeTimeout` names. -/
def TimerOk (s : EqState) : Prop :=
  s.timerQueue = [] ∨ ∃ h, s.timerQueue = [h] ∧ s.resizeTimeout = some h

/-! ### Form validation (`validateField`, lines 417-457)

A JavaScript string is the list of its characters. The regular expressions of
`validateField` carry no `u` flag and so work on UTF-16 code units, but each
character class used treats the two halves of a surrogate pair alike, so that
matching character by character gives the same answer. `length` counts code
units. -/

/-- The characters matched by `\s` in a JavaScript regular expression, which
are also the ones `String.prototype.trim` strips: WhiteSpace and
LineTerminator of ECMAScript. -/
def isWhiteSpace (c : Char) : Bool :=
  c.toNat == 9 || c.toNat == 10 || c.toNat == 11 || c.toNat == 12 || c.toNat == 13 ||
    c.toNat == 32 || c.toNat == 160 || c.toNat == 5760 ||
    (8192 ≤ c.toNat && c.toNat ≤ 8202) || c.toNat == 8232 || c.toNat == 8233 ||
    c.toNat == 8239 || c.toNat == 8287 || c.toNat == 12288 || c.toNat == 65279

/-- The method `String.prototype.trim`: whitespace is stripped at both ends. -/
def trim (v : List Char) : List Char :=
  ((v.dropWhile isWhiteSpace).reverse.dropWhile isWhiteSpace).reverse

/-- The property `length` of a string: the number of UTF-16 code units. -/
def jsLength (v : List Char) : Nat :=
  (v.map (fun c => if c.toNat < 65536 then 1 else 2)).sum

/-- Regular expressions, as far as `validateField` uses them: character
classes, concatenation and repetition (with the pieces derivatives need). -/
inductive Regex where
  | none : Regex
  | empty : Regex
  | cls (p : Char → Bool) : Regex
  | seq (a b : Regex) : Regex
  | alt (a b : Regex) : Regex
  | star (a : Regex) : Regex

/-- The quantifier `+`: one or more. -/
def Regex.plus (a : Regex) : Regex := .seq a (.star a)

/-- The quantifier `{n,}`: at least `n`. -/
def Regex.atLeast : Nat → Regex → Regex
  | 0, a => .star a
  | n + 1, a => .seq a (Regex.atLeast n a)

/-- Whether the expression matches the empty string. -/
def Regex.nullable : Regex → Bool
  | .none => false
  | .empty => true
  | .cls _ => false
  | .seq a b => a.nullable && b.nullable
  | .alt a b => a.nullable || b.nullable
  | .star _ => true

/-- The derivative of an expression by a character: what is left to match
after reading `c`. -/
def Regex.deriv : Regex → Char → Regex
  | .none, _ => .none
  | .empty, _ => .none
  | .cls p, c => if p c then .empty else .none
  | .seq a b, c =>
    if a.nullable then .alt (.seq (a.deriv c) b) (b.deriv c) else .seq (a.deriv c) b
  | .alt a b, c => .alt (a.deriv c) (b.deriv c)
  | .star a, c => .seq (a.deriv c) (.star a)

/-- The call `regex.test(v)` for an expression anchored as `^...$` without
flags: the whole of `v` has to match. -/
def Regex.test : Regex → List Char → Bool
  | r, [] => r.nullable
  | r, c :: cs => Regex.test (r.deriv c) cs

/-- The class `[^\s@]`. -/
def notSpaceAt : Regex := .cls (fun c => !isWhiteSpace c && c != '@')

/-- The constant `emailRegex`: `/^[^\s@]+@[^\s@]+\.[^\s@]+$/`. -/
def emailRegex : Regex :=
  .seq notSpaceAt.plus
    (.seq (.cls (fun c => c == '@'))
      (.seq notSpaceAt.plus (.seq (.cls (fun c => c == '.')) notSpaceAt.plus)))

/-- The constant `phoneRegex`: `/^[\d\s\-+()]{8,}$/`. -/
def phoneRegex : Regex :=
  Regex.atLeast 8
    (.cls (fun c => c.isDigit || isWhiteSpace c || c == '-' || c == '+' || c == '(' ||
      c == ')'))

/-- The element `field.closest('.form-group')`: whether it carries the class
`error`, and the text of its `.error-message` child (`none`: no such child). -/
structure FormGroup where
  error : Bool
  errorText : Option String
deriving DecidableEq

/-- A form field as `validateField` reads it; `formGroup` is `none` when the
field has no `.form-group` ancestor. -/
structure Field where
  required : Bool
  type : String
  name : String
  value : List Char
  formGroup : Option FormGroup
deriving DecidableEq

/-- The variable `errorMessage` of `validateField` when the checks are done
(lines 420-445). -/
def errorMessage (f : Field) : String :=
  if f.required && (trim f.value).isEmpty then
    "This field is required"
  else if f.type == "email" && !f.value.isEmpty then
    if !emailRegex.test f.value then "Please enter a valid email address" else ""
  else if f.type == "tel" && !f.value.isEmpty then
    if !phoneRegex.test f.value then "Please enter a valid phone number" else ""
  else if f.name == "name" && !f.value.isEmpty then
    if jsLength (trim f.value) < 2 then "Name must be at least 2 characters" else ""
  else
    ""

/-- The function `validateField`: the value it returns and the form group
after the update of lines 447-456. -/
def validateField (f : Field) : Bool × Option FormGroup :=
  if errorMessage f != "" then
    (false, f.formGroup.map
      (fun g => { error := true, errorText := g.errorText.map (fun _ => errorMessage f) }))
  else
    (true, f.formGroup.map
      (fun g => { error := false, errorText := g.errorText.map (fun _ => "") }))

/-- The shape of an address as the specification words it: no whitespace,
exactly one `@`, at least one character before the `@`, and after the `@` a
`.` with at least one character before it and at least one after it. -/
def EmailShape (v : List Char) : Prop :=
  (∀ c ∈ v, isWhiteSpace c = false) ∧ v.count '@' = 1 ∧
    ∃ l d1 d2 : List Char, v = l ++ '@' :: (d1 ++ '.' :: d2) ∧ l ≠ [] ∧ d1 ≠ [] ∧ d2 ≠ []

/-! ### Binary64 arithmetic of a frame

JavaScript numbers are IEEE 754 binary64 and every arithmetic operation rounds
to nearest, ties to even. The definitions below redo the arithmetic of
`animate` with that rounding: a binary64 number is a rational `x` with
`fl x = x`. Gradual underflow is modelled; overflow to `Infinity` is not (the
quantities of a frame are layout sizes, draws in `[0, 1)` and their sums). -/

/-- Round to the nearest integer, ties to the even one. -/
def rne (q : ℚ) : ℤ :=
  if q - ⌊q⌋ < 1 / 2 then ⌊q⌋
  else if 1 / 2 < q - ⌊q⌋ then ⌊q⌋ + 1
  else if ⌊q⌋ % 2 = 0 then ⌊q⌋ else ⌊q⌋ + 1

/-- The binary64 exponent of `x`: `floor (log2 |x|)`, but not below the
exponent `-1022` of the subnormal numbers. -/
def expo (x : ℚ) : ℤ := max (Int.log 2 |x|) (-1022)

/-- The spacing of the binary64 numbers around `x` (53 significant bits). -/
def ulp (x : ℚ) : ℚ := (2 : ℚ) ^ (expo x - 52)

/-- The binary64 number nearest to `x`, ties to even. -/
def fl (x : ℚ) : ℚ := (rne (x / ulp x) : ℚ) * ulp x

/-- The absolute rounding error in the subnormal range, `2 ^ -1075`. -/
def eta64 : ℚ := 1 / 2 ^ 1075

/-- The literal `0.05` of line 236 as a binary64 number. -/
def c05 : ℚ := fl 0.05

/-- The literal `0.6` of line 234 as a binary64 number. -/
def c06 : ℚ := fl 0.6

/-- The test of line 233, `Math.abs(bar.height - bar.targetHeight) < 1`, on
binary64 numbers. -/
def needsReroll (bar : Bar) : Bool :=
  decide (|fl (bar.height - bar.targetHeight)| < 1)

/-- The height update of one bar (lines 233-236) in binary64 arithmetic:
`Math.random() * (height * 0.6) + 20` and
`bar.height += (bar.targetHeight - bar.height) * 0.05`, every operation
rounded. -/
def stepBar64 (H : ℚ) (rand : Nat → ℚ) (rng : Nat) (bar : Bar) : Bar × Nat :=
  let target :=
    if needsReroll bar then fl (fl (rand rng * fl (H * c06)) + 20) else bar.targetHeight
  let rng1 := if needsReroll bar then rng + 1 else rng
  ({ bar with targetHeight := target,
              height := fl (bar.height + fl (fl (target - bar.height) * c05)) }, rng1)

/-- The `bars.forEach` of `animate` in binary64 arithmetic. -/
def animateBars64 (H : ℚ) (rand : Nat → ℚ) : Nat → List Bar → List Bar × Nat
  | rng, [] => ([], rng)
  | rng, bar :: rest =>
    let r := stepBar64 H rand rng bar
    let rs := animateBars64 H rand r.2 rest
    (r.1 :: rs.1, rs.2)

/-- The rectangle painted for a bar, `height - bar.height` rounded. -/
def barRect64 (H : ℚ) (bar : Bar) : Rect :=
  { x := bar.x, y := fl (H - bar.height), w := 5, h := bar.height }

/-- The function `animate` in binary64 arithmetic. -/
def animate64 (L : Layout) (rand : Nat → ℚ) (s : EqState) : EqState :=
  let r := animateBars64 L.offsetHeight rand s.rng s.bars
  { s with
    bars := r.1,
    rng := r.2,
    painted := r.1.map (barRect64 L.offsetHeight),
    animationId := some s.nextFrameHandle,
    frameQueue := s.frameQueue ++ [s.nextFrameHandle],
    nextFrameHandle := s.nextFrameHandle + 1,
    animateCalls := s.animateCalls + 1 }

/-! ## Scheduling: visibility events and the frame loop -/

/-- C1: the state reached from a successful `initEqualizer` by one
visibility-enter event is reachable and has two pending frame callbacks
(handles 1 and 2): two animation loops are active at once. -/
theorem enter_while_running_duplicates_loop (rand : Nat → ℚ) (L L1 : Layout) :
    ∃ s, initEqualizer rand (some ⟨L, true⟩) EqState.blank = .ok s ∧
      s.frameQueue = [1] ∧
      Reachable rand (step rand L1 s visibilityEnter) ∧
      (step rand L1 s visibilityEnter).frameQueue = [1, 2] ∧
      (step rand L1 s visibilityEnter).frameQueue.length = 2 :=
  ⟨_, rfl, rfl, Reachable.step L1 visibilityEnter _ (Reachable.init ⟨L, true⟩ _ rfl),
    rfl, rfl⟩

/-- C2: after `initEqualizer`, a visibility-enter and then a visibility-exit,
the exit handler has cancelled only handle 2: the callback with handle 1 is
still pending, and when it fires `animate` runs a third time although no
visibility-enter came after the exit. -/
theorem exit_leaves_frame_pending (rand : Nat → ℚ) (L L1 L2 L3 : Layout) :
    ∃ s, initEqualizer rand (some ⟨L, true⟩) EqState.blank = .ok s ∧
      Reachable rand (step rand L1 s visibilityEnter) ∧
      (run rand s [(L1, visibilityEnter), (L2, visibilityExit)]).frameQueue = [1] ∧
      (run rand s [(L1, visibilityEnter), (L2, visibilityExit)]).animateCalls = 2 ∧
      (run rand s [(L1, visibilityEnter), (L2, visibilityExit),
        (L3, Event.frame 1)]).animateCalls = 3 :=
  ⟨_, rfl, Reachable.step L1 visibilityEnter _ (Reachable.init ⟨L, true⟩ _ rfl),
    rfl, rfl, rfl⟩

/-! ## Initialization guard -/

/-- C6: with the canvas missing `initEqualizer` returns the page state
unchanged, but with a canvas whose `getContext('2d')` is `null` it throws a
`TypeError` instead of returning. -/
theorem initEqualizer_null_context_throws (rand : Nat → ℚ) (L : Layout) (s : EqState) :
    initEqualizer rand none s = .ok s ∧
      initEqualizer rand (some ⟨L, false⟩) s = .error JsError.typeError :=
  ⟨rfl, rfl⟩

/-! ## Pause and resume -/

/-- The visibility-exit handler leaves the bar collection (and the random
cursor) unchanged in every state, and a visibility-enter delivered right after
it, with no event in between, computes its bars from the bars the state had
before the exit. -/
theorem pause_resume_preserves_bars (rand : Nat → ℚ) (Lx Le : Layout) (s : EqState) :
    (step rand Lx s visibilityExit).bars = s.bars ∧
      (step rand Lx s visibilityExit).rng = s.rng ∧
      (onIntersection Lx rand [false] s).bars = s.bars ∧
      (onIntersection Le rand [true] (onIntersection Lx rand [false] s)).bars =
        (animateBars Le.offsetHeight rand s.rng s.bars).1 ∧
      (onIntersection Le rand [true] (onIntersection Lx rand [false] s)).bars =
        (animate Le rand s).bars := by
  have h1 : (cancelAnimationFrame s).bars = s.bars := by
    unfold cancelAnimationFrame; cases s.animationId <;> rfl
  have h2 : (cancelAnimationFrame s).rng = s.rng := by
    unfold cancelAnimationFrame; cases s.animationId <;> rfl
  have hx : onIntersection Lx rand [false] s = cancelAnimationFrame s := by
    simp [onIntersection]
  have he : ∀ t, onIntersection Le rand [true] t = animate Le rand t := by
    intro t; simp [onIntersection]
  refine ⟨?_, ?_, ?_, ?_, ?_⟩
  · cases ho : s.observing <;> simp [step, visibilityExit, ho, hx, h1]
  · cases ho : s.observing <;> simp [step, visibilityExit, ho, hx, h2]
  · rw [hx, h1]
  · rw [hx, he]; simp [animate, h1, h2]
  · rw [hx, he]; simp [animate, h1, h2]


/-! ## Bar generation -/

/-- Lookup in the bar collection built by `initBars`. -/
theorem initBars_getElem? (L : Layout) (rand : Nat → ℚ) (s : EqState) (i : Nat) (b : Bar)
    (h : (initBars L rand s).bars[i]? = some b) :
    i < (barCount L).toNat ∧ b = mkBar rand (barCount L) (s.rng + 3 * i) i := by
  simp only [initBars, List.getElem?_map] at h
  by_cases hi : i < (barCount L).toNat
  · rw [List.getElem?_range hi] at h
    simp at h
    exact ⟨hi, h.symm⟩
  · rw [List.getElem?_eq_none (by simpa using hi)] at h
    simp at h

/-- Length of the bar collection built by `initBars`. -/
theorem initBars_length (L : Layout) (rand : Nat → ℚ) (s : EqState) :
    (initBars L rand s).bars.length = (barCount L).toNat := by
  simp [initBars]

/-- C4: for a drawable width `w >= 0` and any previous state, `initBars` and
`resizeCanvas` leave exactly `floor(w / 8)` bars: 100 bars for `w = 800`, none
for `w < 8`. -/
theorem initBars_bar_count (L : Layout) (rand : Nat → ℚ) (s : EqState)
    (hw : 0 ≤ L.offsetWidth) :
    ((initBars L rand s).bars.length : ℤ) = Int.floor (L.offsetWidth / 8) ∧
      ((resizeCanvas L rand s).bars.length : ℤ) = Int.floor (L.offsetWidth / 8) ∧
      (L.offsetWidth = 800 → (initBars L rand s).bars.length = 100) ∧
      (L.offsetWidth < 8 → (initBars L rand s).bars.length = 0) := by
  have hfl : 0 ≤ Int.floor (L.offsetWidth / 8) := Int.floor_nonneg.mpr (by positivity)
  refine ⟨?_, ?_, ?_, ?_⟩
  · rw [initBars_length, barCount, Int.toNat_of_nonneg hfl]
  · rw [resizeCanvas, initBars_length, barCount, Int.toNat_of_nonneg hfl]
  · intro h8
    rw [initBars_length, barCount, h8]
    norm_num
    rfl
  · intro h8
    rw [initBars_length, barCount]
    have : Int.floor (L.offsetWidth / 8) = 0 := by
      rw [Int.floor_eq_iff]
      constructor
      · simpa using div_nonneg hw (by norm_num : (0 : ℚ) ≤ 8)
      · rw [div_lt_iff₀ (by norm_num : (0 : ℚ) < 8)]
        simpa using h8
    rw [this]
    rfl

/-- Witness for C4: a canvas 800 wide. -/
theorem initBars_bar_count_witness :
    (0 : ℚ) ≤ (Layout.mk 800 100 1).offsetWidth ∧
      (initBars ⟨800, 100, 1⟩ (fun _ => 1 / 2) EqState.blank).bars.length = 100 :=
  ⟨by norm_num,
    (initBars_bar_count ⟨800, 100, 1⟩ (fun _ => 1 / 2) EqState.blank (by norm_num)).2.2.1 rfl⟩

/-- C5: in a non-empty bar set produced by `initBars`, the bar at index `i`
has hue `260 + (i / total) * 60` whatever the random draws, so every hue lies
in `[260, 320)`, hues increase strictly with the index, and the first bar
exists and has hue exactly 260. -/
theorem initBars_hue (L : Layout) (rand : Nat → ℚ) (s : EqState)
    (hpos : 0 < (initBars L rand s).bars.length) :
    (∀ (i : Nat) (b : Bar), (initBars L rand s).bars[i]? = some b →
        b.hue = 260 + ((i : ℚ) / ((initBars L rand s).bars.length : ℚ)) * 60 ∧
          260 ≤ b.hue ∧ b.hue < 320) ∧
      (∀ (i j : Nat) (bi bj : Bar), (initBars L rand s).bars[i]? = some bi →
        (initBars L rand s).bars[j]? = some bj → i < j → bi.hue < bj.hue) ∧
      (∃ b, (initBars L rand s).bars[0]? = some b ∧ b.hue = 260) := by
  rw [initBars_length] at hpos
  have hc : 0 ≤ barCount L := by
    by_contra hneg
    rw [Int.toNat_eq_zero.mpr (le_of_lt (not_le.mp hneg))] at hpos
    exact absurd hpos (lt_irrefl 0)
  have hcast : ((barCount L : ℤ) : ℚ) = (((barCount L).toNat : ℕ) : ℚ) := by
    have h1 : (((barCount L).toNat : ℕ) : ℤ) = barCount L := Int.toNat_of_nonneg hc
    have h2 : ((((barCount L).toNat : ℕ) : ℤ) : ℚ) = ((barCount L : ℤ) : ℚ) := by rw [h1]
    exact h2.symm.trans (Int.cast_natCast _)
  have hnq : (0 : ℚ) < ((barCount L).toNat : ℚ) := by exact_mod_cast hpos
  have hue : ∀ (i : Nat) (b : Bar), (initBars L rand s).bars[i]? = some b →
      i < (barCount L).toNat ∧ b.hue = 260 + ((i : ℚ) / ((barCount L).toNat : ℚ)) * 60 := by
    intro i b hb
    obtain ⟨hi, rfl⟩ := initBars_getElem? L rand s i b hb
    exact ⟨hi, by simp [mkBar, hcast]⟩
  refine ⟨?_, ?_, ?_⟩
  · intro i b hb
    obtain ⟨hi, hh⟩ := hue i b hb
    have hiq : (i : ℚ) < ((barCount L).toNat : ℚ) := by exact_mod_cast hi
    have h0 : (0 : ℚ) ≤ (i : ℚ) / ((barCount L).toNat : ℚ) := by positivity
    have h1 : (i : ℚ) / ((barCount L).toNat : ℚ) < 1 := (div_lt_one hnq).mpr hiq
    rw [initBars_length]
    refine ⟨hh, ?_, ?_⟩ <;> rw [hh] <;> linarith
  · intro i j bi bj hbi hbj hij
    obtain ⟨_, hhi⟩ := hue i bi hbi
    obtain ⟨_, hhj⟩ := hue j bj hbj
    have hijq : (i : ℚ) < (j : ℚ) := by exact_mod_cast hij
    have : (i : ℚ) / ((barCount L).toNat : ℚ) < (j : ℚ) / ((barCount L).toNat : ℚ) :=
      div_lt_div_of_pos_right hijq hnq
    rw [hhi, hhj]; linarith
  · have hlen : 0 < (initBars L rand s).bars.length := by rw [initBars_length]; exact hpos
    refine ⟨(initBars L rand s).bars[0], by simp, ?_⟩
    have hb : (initBars L rand s).bars[0]? = some ((initBars L rand s).bars[0]) := by simp
    obtain ⟨_, hh⟩ := hue 0 _ hb
    rw [hh]; simp

/-- Witness for C5: a canvas 16 wide has two bars, with hues 260 and 290. -/
theorem initBars_hue_witness :
    0 < (initBars ⟨16, 100, 1⟩ (fun _ => 1 / 2) EqState.blank).bars.length ∧
      ∃ b, (initBars ⟨16, 100, 1⟩ (fun _ => 1 / 2) EqState.blank).bars[0]? = some b ∧
        b.hue = 260 :=
  have h : 0 < (initBars ⟨16, 100, 1⟩ (fun _ => 1 / 2) EqState.blank).bars.length := by
    rw [initBars_length, barCount]; norm_num
  ⟨h, (initBars_hue ⟨16, 100, 1⟩ (fun _ => 1 / 2) EqState.blank h).2.2⟩


/-! ## One frame: re-roll and easing -/

/-- The bar update of `stepBar` when the gap is below 1. -/
theorem stepBar_reroll (H : ℚ) (rand : Nat → ℚ) (rng : Nat) (bar : Bar)
    (h : |bar.height - bar.targetHeight| < 1) :
    stepBar H rand rng bar =
      ({ bar with targetHeight := rand rng * (H * 0.6) + 20,
                  height := bar.height + (rand rng * (H * 0.6) + 20 - bar.height) * 0.05 },
        rng + 1) := by
  simp [stepBar, h]

/-- The bar update of `stepBar` when the gap is at least 1. -/
theorem stepBar_keep (H : ℚ) (rand : Nat → ℚ) (rng : Nat) (bar : Bar)
    (h : ¬ |bar.height - bar.targetHeight| < 1) :
    stepBar H rand rng bar =
      ({ bar with height := bar.height + (bar.targetHeight - bar.height) * 0.05 }, rng) := by
  simp [stepBar, h]

/-- The per-bar update does not read the `speed` field and hands it on. -/
theorem stepBar_speed (H : ℚ) (rand : Nat → ℚ) (rng : Nat) (bar : Bar) (v : ℚ) :
    stepBar H rand rng { bar with speed := v } =
      ({ (stepBar H rand rng bar).1 with speed := v }, (stepBar H rand rng bar).2) := by
  simp [stepBar]

/-- A whole frame does not read the `speed` fields: replacing them changes
nothing but the speeds of the result. -/
theorem animateBars_speed (H : ℚ) (rand : Nat → ℚ) (f : Bar → ℚ) (bs : List Bar) (rng : Nat) :
    (animateBars H rand rng (bs.map (fun b => { b with speed := f b }))).2 =
        (animateBars H rand rng bs).2 ∧
      (animateBars H rand rng (bs.map (fun b => { b with speed := f b }))).1.map
          (fun b => (b.x, b.height, b.targetHeight, b.hue)) =
        (animateBars H rand rng bs).1.map
          (fun b => (b.x, b.height, b.targetHeight, b.hue)) := by
  induction bs generalizing rng with
  | nil => simp [animateBars]
  | cons b rest ih =>
    simp only [List.map_cons, animateBars, stepBar_speed]
    exact ⟨(ih _).1, by rw [(ih _).2]⟩

/-- A whole frame leaves every bar's `speed` as it was. -/
theorem animateBars_speed_kept (H : ℚ) (rand : Nat → ℚ) (bs : List Bar) (rng : Nat) :
    (animateBars H rand rng bs).1.map Bar.speed = bs.map Bar.speed := by
  induction bs generalizing rng with
  | nil => simp [animateBars]
  | cons b rest ih =>
    simp only [List.map_cons, animateBars, ih]
    simp [stepBar]

/-! ## Height bounds -/

/-- One bar update keeps height and target inside `[0, 0.6 * H + 130]`. -/
theorem stepBar_ok (H : ℚ) (rand : Nat → ℚ) (rng : Nat) (bar : Bar) (hH : 0 ≤ H)
    (hr : 0 ≤ rand rng ∧ rand rng < 1) (hb : BarOk (0.6 * H + 130) bar) :
    BarOk (0.6 * H + 130) (stepBar H rand rng bar).1 := by
  obtain ⟨h0, hM, t0, tM⟩ := hb
  by_cases hg : |bar.height - bar.targetHeight| < 1
  · rw [stepBar_reroll H rand rng bar hg]
    have h6 : (0 : ℚ) ≤ H * 0.6 := by norm_num; linarith
    have hm : rand rng * (H * 0.6) ≤ 1 * (H * 0.6) :=
      mul_le_mul_of_nonneg_right hr.2.le h6
    have hp : 0 ≤ rand rng * (H * 0.6) := mul_nonneg hr.1 h6
    have e6 : H * 0.6 = 0.6 * H := mul_comm _ _
    refine ⟨?_, ?_, ?_, ?_⟩
    · show 0 ≤ bar.height + (rand rng * (H * 0.6) + 20 - bar.height) * 0.05
      norm_num at *; linarith
    · show bar.height + (rand rng * (H * 0.6) + 20 - bar.height) * 0.05 ≤ 0.6 * H + 130
      norm_num at *; linarith
    · show 0 ≤ rand rng * (H * 0.6) + 20
      linarith
    · show rand rng * (H * 0.6) + 20 ≤ 0.6 * H + 130
      linarith
  · rw [stepBar_keep H rand rng bar hg]
    refine ⟨?_, ?_, t0, tM⟩
    · show 0 ≤ bar.height + (bar.targetHeight - bar.height) * 0.05
      norm_num at *; linarith
    · show bar.height + (bar.targetHeight - bar.height) * 0.05 ≤ 0.6 * H + 130
      norm_num at *; linarith

/-- A whole frame keeps every bar inside the bounds. -/
theorem animateBars_ok (H : ℚ) (rand : Nat → ℚ) (hH : 0 ≤ H)
    (hr : ∀ n, 0 ≤ rand n ∧ rand n < 1) (bs : List Bar) (rng : Nat)
    (hb : ∀ b ∈ bs, BarOk (0.6 * H + 130) b) :
    ∀ b ∈ (animateBars H rand rng bs).1, BarOk (0.6 * H + 130) b := by
  induction bs generalizing rng with
  | nil => intro b hbm; simp [animateBars] at hbm
  | cons a rest ih =>
    intro b hbm
    simp only [animateBars, List.mem_cons] at hbm
    rcases hbm with rfl | hbm
    · exact stepBar_ok H rand rng a hH (hr rng) (hb a (List.mem_cons_self _ _))
    · exact ih _ (fun c hc => hb c (List.mem_cons_of_mem _ hc)) b hbm

/-- Bars fresh from `initBars` are inside the bounds. -/
theorem initBars_ok (H : ℚ) (rand : Nat → ℚ) (hH : 0 ≤ H)
    (hr : ∀ n, 0 ≤ rand n ∧ rand n < 1) (L : Layout) (s : EqState) :
    ∀ b ∈ (initBars L rand s).bars, BarOk (0.6 * H + 130) b := by
  intro b hbm
  simp only [initBars, List.mem_map, List.mem_range] at hbm
  obtain ⟨i, _, rfl⟩ := hbm
  have h1 := hr (s.rng + 3 * i)
  have h2 := hr (s.rng + 3 * i + 1)
  refine ⟨?_, ?_, ?_, ?_⟩
  · show 0 ≤ rand (s.rng + 3 * i) * 50 + 20
    linarith [h1.1]
  · show rand (s.rng + 3 * i) * 50 + 20 ≤ 0.6 * H + 130
    norm_num; linarith [h1.2]
  · show 0 ≤ rand (s.rng + 3 * i + 1) * 100 + 30
    linarith [h2.1]
  · show rand (s.rng + 3 * i + 1) * 100 + 30 ≤ 0.6 * H + 130
    norm_num; linarith [h2.2]

/-- Any number of frames at drawable height `H` keeps the bounds. -/
theorem runFrames_ok (H : ℚ) (rand : Nat → ℚ) (hH : 0 ≤ H)
    (hr : ∀ n, 0 ≤ rand n ∧ rand n < 1) (Ls : List Layout)
    (hLs : ∀ L ∈ Ls, L.offsetHeight = H) (s : EqState)
    (hs : ∀ b ∈ s.bars, BarOk (0.6 * H + 130) b) :
    ∀ b ∈ (runFrames rand Ls s).bars, BarOk (0.6 * H + 130) b := by
  induction Ls generalizing s with
  | nil => exact hs
  | cons L rest ih =>
    have hL : L.offsetHeight = H := hLs L (List.mem_cons_self _ _)
    refine ih (fun K hK => hLs K (List.mem_cons_of_mem _ hK)) (animate L rand s) ?_
    show ∀ b ∈ (animateBars L.offsetHeight rand s.rng s.bars).1, BarOk (0.6 * H + 130) b
    rw [hL]
    exact animateBars_ok H rand hH hr s.bars s.rng hs

/-- C3: for a drawable height `H >= 0` that is the same in every frame, any
drawable width and any random draws in `[0, 1)`, every bar of every state
reached from `initBars` by any number of `animate` frames has
`0 <= height <= 0.6 * H + 130`. -/
theorem bar_height_bounded (H : ℚ) (rand : Nat → ℚ) (hH : 0 ≤ H)
    (hr : ∀ n, 0 ≤ rand n ∧ rand n < 1) (L0 : Layout) (s : EqState) (Ls : List Layout)
    (hLs : ∀ L ∈ Ls, L.offsetHeight = H) :
    ∀ b ∈ (runFrames rand Ls (initBars L0 rand s)).bars,
      0 ≤ b.height ∧ b.height ≤ 0.6 * H + 130 := by
  intro b hb
  have := runFrames_ok H rand hH hr Ls hLs (initBars L0 rand s)
    (initBars_ok H rand hH hr L0 s) b hb
  exact ⟨this.1, this.2.1⟩

/-- Witness for C3: two bars, drawable height 100, every draw 1/2, two frames. -/
theorem bar_height_bounded_witness :
    (0 : ℚ) ≤ 100 ∧
      ∀ b ∈ (runFrames (fun _ => 1 / 2) [⟨16, 100, 1⟩, ⟨16, 100, 1⟩]
          (initBars ⟨16, 100, 1⟩ (fun _ => 1 / 2) EqState.blank)).bars,
        0 ≤ b.height ∧ b.height ≤ 0.6 * 100 + 130 :=
  ⟨by norm_num,
    bar_height_bounded 100 (fun _ => 1 / 2) (by norm_num)
      (fun _ => ⟨by norm_num, by norm_num⟩) ⟨16, 100, 1⟩ EqState.blank
      [⟨16, 100, 1⟩, ⟨16, 100, 1⟩] (by intro L hL; simp at hL; rw [hL])⟩


/-! ## Resize debounce -/

/-- The observer callback leaves the timer state, the listener and the count
of `resizeCanvas` calls alone. -/
theorem onIntersection_timers (L : Layout) (rand : Nat → ℚ) (entries : List Bool)
    (s : EqState) :
    (onIntersection L rand entries s).timerQueue = s.timerQueue ∧
      (onIntersection L rand entries s).resizeTimeout = s.resizeTimeout ∧
      (onIntersection L rand entries s).resizeListener = s.resizeListener ∧
      (onIntersection L rand entries s).resizeCalls = s.resizeCalls := by
  induction entries generalizing s with
  | nil => exact ⟨rfl, rfl, rfl, rfl⟩
  | cons e rest ih =>
    have hc : (cancelAnimationFrame s).timerQueue = s.timerQueue ∧
        (cancelAnimationFrame s).resizeTimeout = s.resizeTimeout ∧
        (cancelAnimationFrame s).resizeListener = s.resizeListener ∧
        (cancelAnimationFrame s).resizeCalls = s.resizeCalls := by
      unfold cancelAnimationFrame; cases s.animationId <;> exact ⟨rfl, rfl, rfl, rfl⟩
    cases e
    · have := ih (cancelAnimationFrame s)
      simp only [onIntersection, List.foldl_cons] at this ⊢
      simp only [Bool.false_eq_true, if_false]
      rw [this.1, this.2.1, this.2.2.1, this.2.2.2]
      exact hc
    · have := ih (animate L rand s)
      simp only [onIntersection, List.foldl_cons] at this ⊢
      simp only [if_true]
      rw [this.1, this.2.1, this.2.2.1, this.2.2.2]
      exact ⟨rfl, rfl, rfl, rfl⟩

/-- Every event keeps the resize listener registered and at most one timer
pending. -/
theorem step_timerOk (rand : Nat → ℚ) (L : Layout) (e : Event) (s : EqState)
    (hl : s.resizeListener = true) (ht : TimerOk s) :
    (step rand L s e).resizeListener = true ∧ TimerOk (step rand L s e) := by
  cases e with
  | frame h =>
    simp only [step]
    split
    · exact ⟨hl, ht⟩
    · exact ⟨hl, ht⟩
  | resize =>
    simp only [step, hl, if_true]
    refine ⟨hl, Or.inr ⟨s.nextTimerHandle, ?_, rfl⟩⟩
    rcases ht with h0 | ⟨h, hq, hrt⟩
    · simp only [onResize, h0]
      cases s.resizeTimeout <;> simp
    · simp [onResize, hq, hrt]
  | timer h =>
    simp only [step]
    split
    · rename_i hmem
      refine ⟨hl, Or.inl ?_⟩
      rcases ht with h0 | ⟨k, hq, _⟩
      · rw [h0] at hmem; simp at hmem
      · rw [hq] at hmem
        have hk : h = k := by simpa using hmem
        show s.timerQueue.filter (fun j => j != h) = []
        rw [hq, hk]; simp
    · exact ⟨hl, ht⟩
  | intersection entries =>
    simp only [step]
    split
    · obtain ⟨h1, h2, h3, _⟩ := onIntersection_timers L rand entries s
      refine ⟨by rw [h3]; exact hl, ?_⟩
      unfold TimerOk
      rw [h1, h2]
      exact ht
    · exact ⟨hl, ht⟩

/-- Reachable states have the resize listener registered and at most one
timer pending. -/
theorem reachable_timerOk (rand : Nat → ℚ) (s : EqState) (hs : Reachable rand s) :
    s.resizeListener = true ∧ TimerOk s := by
  induction hs with
  | init c s h =>
    simp only [initEqualizer] at h
    split at h
    · injection h with h
      subst h
      exact ⟨rfl, Or.inl rfl⟩
    · exact absurd h (by simp)
  | step L e s _ ih => exact step_timerOk rand L e s ih.1 ih.2

/-- An event that is not a timer expiry does not run `resizeCanvas`; a resize
event leaves exactly one timer pending, and the other events keep a single
pending timer as it is. -/
theorem step_no_expiry (rand : Nat → ℚ) (L : Layout) (e : Event) (s : EqState)
    (hl : s.resizeListener = true) (ht : TimerOk s) (he : e.isTimer = false) :
    (step rand L s e).resizeCalls = s.resizeCalls ∧
      (e = Event.resize → ∃ h, TimerPending (step rand L s e) h) ∧
      ((∃ h, TimerPending s h) → ∃ h, TimerPending (step rand L s e) h) := by
  have hres : ∃ h, TimerPending (step rand L s Event.resize) h := by
    rcases (step_timerOk rand L Event.resize s hl ht).2 with h0 | h1
    · simp [step, hl, onResize] at h0
    · exact h1
  cases e with
  | frame h =>
    refine ⟨?_, fun h0 => Event.noConfusion h0, ?_⟩
    · simp only [step]; split <;> rfl
    · intro hp
      simp only [step]; split
      · exact hp
      · exact hp
  | resize =>
    refine ⟨?_, fun _ => hres, fun _ => hres⟩
    simp only [step, hl, if_true]; rfl
  | timer h => simp [Event.isTimer] at he
  | intersection entries =>
    obtain ⟨h1, h2, _, h4⟩ := onIntersection_timers L rand entries s
    refine ⟨?_, fun h0 => Event.noConfusion h0, ?_⟩
    · simp only [step]; split
      · exact h4
      · rfl
    · intro hp
      simp only [step]; split
      · unfold TimerPending; rw [h1, h2]; exact hp
      · exact hp

/-- A run without timer expiry does not run `resizeCanvas`; it keeps a single
pending timer, and ends with a single pending timer once it holds a resize
event. -/
theorem run_no_expiry (rand : Nat → ℚ) (evs : List (Layout × Event)) (s : EqState)
    (hl : s.resizeListener = true) (ht : TimerOk s)
    (hne : ∀ le ∈ evs, le.2.isTimer = false) :
    (run rand s evs).resizeCalls = s.resizeCalls ∧
      ((∃ L, (L, Event.resize) ∈ evs) → ∃ h, TimerPending (run rand s evs) h) ∧
      ((∃ h, TimerPending s h) → ∃ h, TimerPending (run rand s evs) h) := by
  induction evs generalizing s with
  | nil =>
    refine ⟨rfl, ?_, fun hp => hp⟩
    rintro ⟨L, hL⟩
    simp at hL
  | cons le rest ih =>
    have he : le.2.isTimer = false := hne le (List.mem_cons_self _ _)
    have hok := step_timerOk rand le.1 le.2 s hl ht
    obtain ⟨hc, hr, hp⟩ := step_no_expiry rand le.1 le.2 s hl ht he
    obtain ⟨ic, ir, ip⟩ := ih (step rand le.1 s le.2) hok.1 hok.2
      (fun x hx => hne x (List.mem_cons_of_mem _ hx))
    have hrun : run rand s (le :: rest) = run rand (step rand le.1 s le.2) rest := rfl
    rw [hrun]
    refine ⟨ic.trans hc, ?_, fun h => ip (hp h)⟩
    rintro ⟨L, hL⟩
    rcases List.mem_cons.mp hL with heq | hmem
    · exact ip (hr (by rw [← heq]))
    · exact ir ⟨L, hmem⟩

/-- C10: in every reachable state at most one resize timer is pending; after
a burst of events that holds at least one resize event and no timer expiry,
exactly one timer is pending (the one `resizeTimeout` names) and
`resizeCanvas` has not run during the burst; then an expiry of any other
handle does nothing, and the expiry of the pending one runs `resizeCanvas`
once, regenerates the bars and leaves no timer, so that no further expiry can
run it again. -/
theorem resize_debounce (rand : Nat → ℚ) (s : EqState) (hs : Reachable rand s)
    (evs : List (Layout × Event)) (hne : ∀ le ∈ evs, le.2.isTimer = false)
    (hres : ∃ L, (L, Event.resize) ∈ evs) :
    s.timerQueue.length ≤ 1 ∧
      ∃ h, (run rand s evs).timerQueue = [h] ∧
        (run rand s evs).resizeTimeout = some h ∧
        (run rand s evs).resizeCalls = s.resizeCalls ∧
        (∀ (L : Layout) (k : Nat), k ≠ h →
          step rand L (run rand s evs) (Event.timer k) = run rand s evs) ∧
        (∀ L : Layout,
          (step rand L (run rand s evs) (Event.timer h)).resizeCalls = s.resizeCalls + 1 ∧
            (step rand L (run rand s evs) (Event.timer h)).bars =
              (initBars L rand (run rand s evs)).bars ∧
            (step rand L (run rand s evs) (Event.timer h)).timerQueue = [] ∧
            ∀ (K : Layout) (k : Nat),
              step rand K (step rand L (run rand s evs) (Event.timer h)) (Event.timer k) =
                step rand L (run rand s evs) (Event.timer h)) := by
  obtain ⟨hl, ht⟩ := reachable_timerOk rand s hs
  refine ⟨?_, ?_⟩
  · rcases ht with h0 | ⟨h, hq, _⟩
    · rw [h0]; simp
    · rw [hq]; simp
  · obtain ⟨hcalls, hpend, _⟩ := run_no_expiry rand evs s hl ht hne
    obtain ⟨h, hqueue, hrt⟩ := hpend hres
    have hfire : ∀ L : Layout,
        step rand L (run rand s evs) (Event.timer h) =
          resizeCanvas L rand { run rand s evs with timerQueue := [] } := by
      intro L
      simp [step, hqueue]
    refine ⟨h, hqueue, hrt, hcalls, ?_, ?_⟩
    · intro L k hk
      simp [step, hqueue, hk]
    · intro L
      rw [hfire L]
      refine ⟨?_, rfl, rfl, ?_⟩
      · show (run rand s evs).resizeCalls + 1 = s.resizeCalls + 1
        rw [hcalls]
      · intro K k
        simp [step, resizeCanvas, initBars]

/-- Witness for C10: three resize events with a frame in between, right after
start-up, leave exactly the third timer pending. -/
theorem resize_debounce_witness :
    ∃ s, initEqualizer (fun _ => 1 / 2) (some ⟨⟨16, 100, 1⟩, true⟩) EqState.blank = .ok s ∧
      Reachable (fun _ => 1 / 2) s ∧
      (run (fun _ => 1 / 2) s
        [(⟨16, 100, 1⟩, Event.resize), (⟨24, 100, 1⟩, Event.resize),
          (⟨24, 100, 1⟩, Event.frame 1), (⟨32, 100, 1⟩, Event.resize)]).timerQueue = [3] ∧
      ∃ h, (run (fun _ => 1 / 2) s
        [(⟨16, 100, 1⟩, Event.resize), (⟨24, 100, 1⟩, Event.resize),
          (⟨24, 100, 1⟩, Event.frame 1), (⟨32, 100, 1⟩, Event.resize)]).timerQueue = [h] :=
  ⟨_, rfl, Reachable.init ⟨⟨16, 100, 1⟩, true⟩ _ rfl, rfl,
    (resize_debounce (fun _ => 1 / 2) _ (Reachable.init ⟨⟨16, 100, 1⟩, true⟩ _ rfl)
      [(⟨16, 100, 1⟩, Event.resize), (⟨24, 100, 1⟩, Event.resize),
        (⟨24, 100, 1⟩, Event.frame 1), (⟨32, 100, 1⟩, Event.resize)]
      (by intro le hle; simp at hle; rcases hle with h | h | h | h <;> rw [h] <;> rfl)
      ⟨⟨16, 100, 1⟩, by simp⟩).2.imp (fun _ hh => hh.1)⟩


/-! ## Form validation: the email check -/

/-- Nothing matches `Regex.none`. -/
theorem test_none (s : List Char) : Regex.none.test s = false := by
  induction s with
  | nil => rfl
  | cons c cs ih => simpa [Regex.test, Regex.deriv] using ih

/-- Only the empty string matches `Regex.empty`. -/
theorem test_empty (s : List Char) : Regex.empty.test s = true ↔ s = [] := by
  cases s with
  | nil => simp [Regex.test, Regex.nullable]
  | cons c cs => simp [Regex.test, Regex.deriv, test_none]

/-- A string matches an alternative when it matches one of the branches. -/
theorem test_alt (a b : Regex) (s : List Char) :
    (Regex.alt a b).test s = (a.test s || b.test s) := by
  induction s generalizing a b with
  | nil => rfl
  | cons c cs ih => simp only [Regex.test, Regex.deriv, ih]

/-- A string matches a concatenation when it splits into a match of each
part. -/
theorem test_seq (a b : Regex) (s : List Char) :
    (Regex.seq a b).test s = true ↔
      ∃ t u, s = t ++ u ∧ a.test t = true ∧ b.test u = true := by
  induction s generalizing a with
  | nil =>
    simp only [Regex.test, Regex.nullable, Bool.and_eq_true]
    constructor
    · rintro ⟨ha, hb⟩
      exact ⟨[], [], rfl, ha, hb⟩
    · rintro ⟨t, u, h, ha, hb⟩
      have ht : t = [] := (List.append_eq_nil.mp h.symm).1
      have hu : u = [] := (List.append_eq_nil.mp h.symm).2
      subst ht; subst hu
      exact ⟨ha, hb⟩
  | cons c cs ih =>
    have hstep : (Regex.seq a b).test (c :: cs) = true ↔
        ((Regex.seq (a.deriv c) b).test cs = true ∨
          (a.nullable = true ∧ (b.deriv c).test cs = true)) := by
      simp only [Regex.test, Regex.deriv]
      cases hn : a.nullable
      · simp
      · simp [test_alt]
    rw [hstep, ih]
    constructor
    · rintro (⟨t, u, h, ha, hb⟩ | ⟨hn, hb⟩)
      · exact ⟨c :: t, u, by rw [h]; rfl, ha, hb⟩
      · exact ⟨[], c :: cs, rfl, hn, hb⟩
    · rintro ⟨t, u, h, ha, hb⟩
      cases t with
      | nil =>
        right
        simp only [List.nil_append] at h
        subst h
        exact ⟨ha, hb⟩
      | cons d t =>
        left
        simp only [List.cons_append, List.cons.injEq] at h
        obtain ⟨hd, hcs⟩ := h
        subst hd
        exact ⟨t, u, hcs, ha, hb⟩

/-- A string matches a character class when it is one character of the
class. -/
theorem test_cls (p : Char → Bool) (s : List Char) :
    (Regex.cls p).test s = true ↔ ∃ c, s = [c] ∧ p c = true := by
  cases s with
  | nil => simp [Regex.test, Regex.nullable]
  | cons c cs =>
    simp only [Regex.test, Regex.deriv]
    cases hp : p c
    · simp only [Bool.false_eq_true, if_false, test_none, false_iff]
      rintro ⟨d, h, hd⟩
      simp only [List.cons.injEq] at h
      rw [← h.1, hp] at hd
      exact absurd hd (by simp)
    · simp only [if_true, test_empty]
      constructor
      · intro h; exact ⟨c, by rw [h], hp⟩
      · rintro ⟨d, h, _⟩
        simp only [List.cons.injEq] at h
        exact h.2

/-- A string matches `[class]*` when all its characters are in the class. -/
theorem test_star_cls (p : Char → Bool) (s : List Char) :
    (Regex.star (Regex.cls p)).test s = true ↔ ∀ c ∈ s, p c = true := by
  induction s with
  | nil => simp [Regex.test, Regex.nullable]
  | cons c cs ih =>
    have hstep : (Regex.star (Regex.cls p)).test (c :: cs) =
        (Regex.seq ((Regex.cls p).deriv c) (Regex.star (Regex.cls p))).test cs := rfl
    rw [hstep, test_seq]
    simp only [List.mem_cons, forall_eq_or_imp]
    constructor
    · rintro ⟨t, u, h, ht, hu⟩
      simp only [Regex.deriv] at ht
      cases hp : p c
      · rw [hp] at ht
        simp [test_none] at ht
      · rw [hp] at ht
        simp only [if_true, test_empty] at ht
        subst ht
        simp only [List.nil_append] at h
        subst h
        exact ⟨rfl, ih.mp hu⟩
    · rintro ⟨hp, hall⟩
      refine ⟨[], cs, rfl, ?_, ih.mpr hall⟩
      simp [Regex.deriv, hp, Regex.test, Regex.nullable]

/-- A string matches `[class]+` when it is not empty and all its characters
are in the class. -/
theorem test_plus_cls (p : Char → Bool) (s : List Char) :
    (Regex.cls p).plus.test s = true ↔ s ≠ [] ∧ ∀ c ∈ s, p c = true := by
  unfold Regex.plus
  rw [test_seq]
  constructor
  · rintro ⟨t, u, h, ht, hu⟩
    obtain ⟨c, rfl, hc⟩ := (test_cls p t).mp ht
    subst h
    refine ⟨by simp, ?_⟩
    intro d hd
    simp only [List.singleton_append, List.mem_cons] at hd
    rcases hd with rfl | hd
    · exact hc
    · exact (test_star_cls p u).mp hu d hd
  · rintro ⟨hne, hall⟩
    cases s with
    | nil => exact absurd rfl hne
    | cons c cs =>
      refine ⟨[c], cs, rfl, (test_cls p [c]).mpr ⟨c, rfl, hall c (List.mem_cons_self _ _)⟩,
        (test_star_cls p cs).mpr (fun d hd => hall d (List.mem_cons_of_mem _ hd))⟩

/-- What `emailRegex` matches, piece by piece. -/
theorem emailRegex_test (v : List Char) :
    emailRegex.test v = true ↔
      ∃ l d1 d2 : List Char, v = l ++ '@' :: (d1 ++ '.' :: d2) ∧
        (l ≠ [] ∧ ∀ c ∈ l, (!isWhiteSpace c && c != '@') = true) ∧
        (d1 ≠ [] ∧ ∀ c ∈ d1, (!isWhiteSpace c && c != '@') = true) ∧
        (d2 ≠ [] ∧ ∀ c ∈ d2, (!isWhiteSpace c && c != '@') = true) := by
  unfold emailRegex notSpaceAt
  constructor
  · intro h
    obtain ⟨l, r1, h1, hl, hr1⟩ := (test_seq _ _ _).mp h
    obtain ⟨a, r2, h2, ha, hr2⟩ := (test_seq _ _ _).mp hr1
    obtain ⟨d1, r3, h3, hd1, hr3⟩ := (test_seq _ _ _).mp hr2
    obtain ⟨b, d2, h4, hb, hd2⟩ := (test_seq _ _ _).mp hr3
    obtain ⟨ca, rfl, hca⟩ := (test_cls _ _).mp ha
    obtain ⟨cb, rfl, hcb⟩ := (test_cls _ _).mp hb
    have eca : ca = '@' := by simpa using hca
    have ecb : cb = '.' := by simpa using hcb
    subst eca; subst ecb
    refine ⟨l, d1, d2, ?_, (test_plus_cls _ _).mp hl, (test_plus_cls _ _).mp hd1,
      (test_plus_cls _ _).mp hd2⟩
    rw [h1, h2, h3, h4]
    rfl
  · rintro ⟨l, d1, d2, hv, hl, hd1, hd2⟩
    refine (test_seq _ _ _).mpr ⟨l, '@' :: (d1 ++ '.' :: d2), hv, (test_plus_cls _ _).mpr hl, ?_⟩
    refine (test_seq _ _ _).mpr ⟨['@'], d1 ++ '.' :: d2, rfl,
      (test_cls _ _).mpr ⟨'@', rfl, by simp⟩, ?_⟩
    refine (test_seq _ _ _).mpr ⟨d1, '.' :: d2, rfl, (test_plus_cls _ _).mpr hd1, ?_⟩
    exact (test_seq _ _ _).mpr ⟨['.'], d2, rfl, (test_cls _ _).mpr ⟨'.', rfl, by simp⟩,
      (test_plus_cls _ _).mpr hd2⟩


/-- If what `dropWhile` leaves is all in the class, so was the whole list. -/
theorem all_of_dropWhile (p : Char → Bool) (v : List Char)
    (h : ∀ c ∈ v.dropWhile p, p c = true) : ∀ c ∈ v, p c = true := by
  induction v with
  | nil => intro c hc; simp at hc
  | cons a rest ih =>
    cases hp : p a
    · rw [List.dropWhile_cons_of_neg (by simp [hp])] at h
      exact h
    · rw [List.dropWhile_cons_of_pos hp] at h
      intro c hc
      rcases List.mem_cons.mp hc with rfl | hc
      · exact hp
      · exact ih h c hc

/-- The trimmed value is empty exactly for a whitespace-only value. -/
theorem trim_eq_nil (v : List Char) :
    trim v = [] ↔ ∀ c ∈ v, isWhiteSpace c = true := by
  unfold trim
  rw [List.reverse_eq_nil_iff, List.dropWhile_eq_nil_iff]
  constructor
  · intro h
    exact all_of_dropWhile isWhiteSpace v (fun c hc => h c (List.mem_reverse.mpr hc))
  · intro h c hc
    exact h c ((List.dropWhile_sublist isWhiteSpace).subset (List.mem_reverse.mp hc))

/-- The expression `emailRegex` matches exactly the values of the shape the
specification describes. -/
theorem emailRegex_shape (v : List Char) : emailRegex.test v = true ↔ EmailShape v := by
  rw [emailRegex_test]
  have key : ∀ w : List Char, (∀ c ∈ w, (!isWhiteSpace c && c != '@') = true) ↔
      ((∀ c ∈ w, isWhiteSpace c = false) ∧ w.count '@' = 0) := by
    intro w
    rw [List.count_eq_zero]
    constructor
    · intro h
      refine ⟨fun c hc => ?_, fun hm => ?_⟩
      · have := h c hc
        simp only [Bool.and_eq_true, Bool.not_eq_true'] at this
        exact this.1
      · have := h '@' hm
        simp at this
    · rintro ⟨h1, h2⟩ c hc
      simp only [Bool.and_eq_true, Bool.not_eq_true', bne_iff_ne, ne_eq]
      exact ⟨h1 c hc, fun he => h2 (he ▸ hc)⟩
  have hat : isWhiteSpace '@' = false := by decide
  have hdot : isWhiteSpace '.' = false := by decide
  have hcount : ∀ l d1 d2 : List Char,
      (l ++ '@' :: (d1 ++ '.' :: d2)).count '@' = l.count '@' + d1.count '@' + d2.count '@' + 1 := by
    intro l d1 d2
    simp only [List.count_append, List.count_cons]
    simp
    omega
  constructor
  · rintro ⟨l, d1, d2, hv, ⟨hl, hlc⟩, ⟨hd1, hd1c⟩, ⟨hd2, hd2c⟩⟩
    obtain ⟨wl, cl⟩ := (key l).mp hlc
    obtain ⟨w1, c1⟩ := (key d1).mp hd1c
    obtain ⟨w2, c2⟩ := (key d2).mp hd2c
    refine ⟨?_, ?_, l, d1, d2, hv, hl, hd1, hd2⟩
    · intro c hc
      rw [hv] at hc
      simp only [List.mem_append, List.mem_cons] at hc
      rcases hc with hc | rfl | hc | rfl | hc
      · exact wl c hc
      · exact hat
      · exact w1 c hc
      · exact hdot
      · exact w2 c hc
    · rw [hv, hcount, cl, c1, c2]
  · rintro ⟨hws, hc, l, d1, d2, hv, hl, hd1, hd2⟩
    rw [hv, hcount] at hc
    have hsub : ∀ c, (c ∈ l ∨ c ∈ d1 ∨ c ∈ d2) → isWhiteSpace c = false := by
      intro c hm
      apply hws c
      rw [hv]
      simp only [List.mem_append, List.mem_cons]
      rcases hm with hm | hm | hm
      · exact Or.inl hm
      · exact Or.inr (Or.inr (Or.inl hm))
      · exact Or.inr (Or.inr (Or.inr (Or.inr hm)))
    refine ⟨l, d1, d2, hv, ⟨hl, (key l).mpr ⟨fun c h => hsub c (Or.inl h), by omega⟩⟩,
      ⟨hd1, (key d1).mpr ⟨fun c h => hsub c (Or.inr (Or.inl h)), by omega⟩⟩,
      ⟨hd2, (key d2).mpr ⟨fun c h => hsub c (Or.inr (Or.inr h)), by omega⟩⟩⟩

/-- C11: for a field of type `email` with a non-empty value that, if the field
is required, is not whitespace-only, `validateField` returns true exactly when
the value has no whitespace, exactly one `@`, something before the `@`, and
after the `@` a `.` with something before and after it; otherwise it returns
false, the message is `Please enter a valid email address`, and that message
is what the form group shows. -/
theorem validateField_email (f : Field) (ht : f.type = "email") (hv : f.value ≠ [])
    (hreq : f.required = true → ∃ c ∈ f.value, isWhiteSpace c = false) :
    ((validateField f).1 = true ↔ EmailShape f.value) ∧
      (EmailShape f.value → errorMessage f = "") ∧
      (¬ EmailShape f.value →
        (validateField f).1 = false ∧
          errorMessage f = "Please enter a valid email address" ∧
          (validateField f).2 = f.formGroup.map (fun g =>
            { error := true,
              errorText := g.errorText.map (fun _ => "Please enter a valid email address") })) := by
  have hfirst : (f.required && (trim f.value).isEmpty) = false := by
    cases hr : f.required
    · rfl
    · obtain ⟨c, hc, hw⟩ := hreq hr
      have : trim f.value ≠ [] := by
        intro h
        have := (trim_eq_nil f.value).mp h c hc
        rw [hw] at this
        exact absurd this (by simp)
      simpa [List.isEmpty_iff] using this
  have hsecond : (f.type == "email" && !f.value.isEmpty) = true := by
    simp [ht, List.isEmpty_iff, hv]
  have hmsg : errorMessage f =
      if !emailRegex.test f.value then "Please enter a valid email address" else "" := by
    unfold errorMessage
    rw [hfirst, hsecond]
    simp
  have hyes : EmailShape f.value → errorMessage f = "" := by
    intro hs
    rw [hmsg, (emailRegex_shape f.value).mpr hs]
    rfl
  have hno : ¬ EmailShape f.value →
      errorMessage f = "Please enter a valid email address" := by
    intro hs
    have : emailRegex.test f.value = false := by
      cases h : emailRegex.test f.value
      · rfl
      · exact absurd ((emailRegex_shape f.value).mp h) hs
    rw [hmsg, this]
    rfl
  refine ⟨?_, hyes, ?_⟩
  · constructor
    · intro h
      by_contra hs
      have hm := hno hs
      unfold validateField at h
      rw [hm] at h
      simp at h
    · intro hs
      unfold validateField
      rw [hyes hs]
      rfl
  · intro hs
    have hm := hno hs
    unfold validateField
    rw [hm]
    exact ⟨rfl, rfl, rfl⟩

/-- Witness for C11: the required field holding `a@b.c` is accepted. -/
theorem validateField_email_witness :
    (Field.mk true "email" "email" ['a', '@', 'b', '.', 'c'] none).type = "email" ∧
      (validateField ⟨true, "email", "email", ['a', '@', 'b', '.', 'c'], none⟩).1 = true ∧
      EmailShape ['a', '@', 'b', '.', 'c'] :=
  have h := validateField_email ⟨true, "email", "email", ['a', '@', 'b', '.', 'c'], none⟩
    rfl (by simp) (fun _ => ⟨'a', by simp, by decide⟩)
  ⟨rfl, by decide, h.1.mp (by decide)⟩


/-! ## Binary64 rounding -/

theorem rne_floor_le (q : ℚ) : ⌊q⌋ ≤ rne q := by
  unfold rne; split_ifs <;> omega

/-- Rounding to an integer does not go above the floor plus one. -/
theorem rne_le_floor_succ (q : ℚ) : rne q ≤ ⌊q⌋ + 1 := by
  unfold rne; split_ifs <;> omega

/-- An integer rounds to itself. -/
theorem rne_intCast (n : ℤ) : rne (n : ℚ) = n := by
  unfold rne; simp

/-- Rounding to an integer is monotone. -/
theorem rne_mono {q r : ℚ} (h : q ≤ r) : rne q ≤ rne r := by
  have hf : ⌊q⌋ ≤ ⌊r⌋ := Int.floor_mono h
  rcases lt_or_eq_of_le hf with hlt | heq
  · calc rne q ≤ ⌊q⌋ + 1 := rne_le_floor_succ q
      _ ≤ ⌊r⌋ := hlt
      _ ≤ rne r := rne_floor_le r
  · have hfr : q - ⌊q⌋ ≤ r - ⌊r⌋ := by rw [heq]; linarith
    unfold rne
    rw [heq]
    rw [heq] at hfr
    split_ifs <;> first | omega | (exfalso; linarith)

/-- Rounding a non-negative number to an integer at most doubles it. -/
theorem rne_le_two_mul {q : ℚ} (h : 0 ≤ q) : (rne q : ℚ) ≤ 2 * q := by
  have h1 : (⌊q⌋ : ℚ) ≤ q := Int.floor_le q
  have h0 : (0 : ℚ) ≤ ⌊q⌋ := by exact_mod_cast Int.floor_nonneg.mpr h
  unfold rne
  split_ifs with a b c
  · linarith
  · push_cast; linarith
  · linarith
  · push_cast
    have : q - ⌊q⌋ = 1 / 2 := le_antisymm (not_lt.mp b) (not_lt.mp a)
    linarith

/-- Rounding a non-positive number to an integer at most doubles it. -/
theorem two_mul_le_rne {q : ℚ} (h : q ≤ 0) : 2 * q ≤ (rne q : ℚ) := by
  have h1 : q < (⌊q⌋ : ℚ) + 1 := Int.lt_floor_add_one q
  have hfq : (⌊q⌋ : ℚ) ≤ q := Int.floor_le q
  have hcase : (⌊q⌋ : ℚ) = 0 ∨ (⌊q⌋ : ℚ) ≤ -1 := by
    have : ⌊q⌋ ≤ 0 := by
      have : (⌊q⌋ : ℚ) ≤ 0 := le_trans hfq h
      exact_mod_cast this
    rcases lt_or_eq_of_le this with hl | he
    · right
      have : ⌊q⌋ ≤ -1 := by omega
      exact_mod_cast this
    · left
      exact_mod_cast he
  unfold rne
  split_ifs with a b c
  · rcases hcase with h0 | hneg <;> linarith
  · push_cast; linarith
  · have : q - ⌊q⌋ = 1 / 2 := le_antisymm (not_lt.mp b) (not_lt.mp a)
    have hq : q = ⌊q⌋ + 1 / 2 := by linarith
    -- floor is even and q ≤ 0, so floor ≤ -1, hence floor ≤ -2
    have hfl : (⌊q⌋ : ℚ) ≤ -1 / 2 := by linarith
    have hfz : ⌊q⌋ ≤ -1 := by
      have : (⌊q⌋ : ℚ) < 0 := by linarith
      have : ⌊q⌋ < 0 := by exact_mod_cast this
      omega
    have hf2 : ⌊q⌋ ≤ -2 := by omega
    have : (⌊q⌋ : ℚ) ≤ -2 := by exact_mod_cast hf2
    linarith
  · push_cast
    have : q - ⌊q⌋ = 1 / 2 := le_antisymm (not_lt.mp b) (not_lt.mp a)
    linarith

/-- Rounding to an integer, ties to even, is odd. -/
theorem rne_neg (q : ℚ) : rne (-q) = -rne q := by
  by_cases hint : (⌊q⌋ : ℚ) = q
  · rw [← hint, ← Int.cast_neg, rne_intCast, rne_intCast]
  · have hlt : (⌊q⌋ : ℚ) < q := lt_of_le_of_ne (Int.floor_le q) hint
    have hlt2 : q < (⌊q⌋ : ℚ) + 1 := Int.lt_floor_add_one q
    have hfn : ⌊-q⌋ = -⌊q⌋ - 1 := by
      rw [Int.floor_eq_iff]
      push_cast
      constructor <;> linarith
    unfold rne
    rw [hfn]
    push_cast
    split_ifs <;> first | omega | (exfalso; linarith)


/-- The spacing is positive. -/
theorem ulp_pos (x : ℚ) : 0 < ulp x := by
  unfold ulp; positivity

/-- The exponent does not depend on the sign. -/
theorem expo_neg (x : ℚ) : expo (-x) = expo x := by
  unfold expo; rw [abs_neg]

/-- The spacing does not depend on the sign. -/
theorem ulp_neg (x : ℚ) : ulp (-x) = ulp x := by
  unfold ulp; rw [expo_neg]

/-- Rounding to binary64 is odd. -/
theorem fl_neg (x : ℚ) : fl (-x) = -fl x := by
  unfold fl
  rw [ulp_neg, neg_div, rne_neg]
  push_cast
  ring

/-- Zero is a binary64 number. -/
theorem fl_zero : fl 0 = 0 := by
  unfold fl
  rw [zero_div]
  have : rne 0 = 0 := by
    have := rne_intCast 0
    simpa using this
  rw [this]; simp

/-- Rounding is monotone inside one binade. -/
theorem fl_mono_same {x y : ℚ} (h : x ≤ y) (he : expo x = expo y) : fl x ≤ fl y := by
  have hu : ulp x = ulp y := by unfold ulp; rw [he]
  unfold fl
  rw [hu]
  have hq : x / ulp y ≤ y / ulp y := div_le_div_of_nonneg_right h (ulp_pos y).le
  have : (rne (x / ulp y) : ℚ) ≤ (rne (y / ulp y) : ℚ) := by exact_mod_cast rne_mono hq
  exact mul_le_mul_of_nonneg_right this (ulp_pos y).le

/-- Rounding keeps a non-negative number non-negative. -/
theorem fl_nonneg {x : ℚ} (h : 0 ≤ x) : 0 ≤ fl x := by
  unfold fl
  have hq : (0 : ℚ) ≤ x / ulp x := div_nonneg h (ulp_pos x).le
  have : rne 0 ≤ rne (x / ulp x) := rne_mono hq
  have h0 : rne 0 = 0 := by simpa using rne_intCast 0
  rw [h0] at this
  have : (0 : ℚ) ≤ (rne (x / ulp x) : ℚ) := by exact_mod_cast this
  exact mul_nonneg this (ulp_pos x).le

/-- Rounding keeps a non-positive number non-positive. -/
theorem fl_nonpos {x : ℚ} (h : x ≤ 0) : fl x ≤ 0 := by
  have := fl_nonneg (neg_nonneg.mpr h)
  rw [fl_neg] at this
  linarith

/-- Rounding a non-negative number at most doubles it. -/
theorem fl_le_two_mul {x : ℚ} (h : 0 ≤ x) : fl x ≤ 2 * x := by
  unfold fl
  have hq : (0 : ℚ) ≤ x / ulp x := div_nonneg h (ulp_pos x).le
  have h2 := rne_le_two_mul hq
  have := mul_le_mul_of_nonneg_right h2 (ulp_pos x).le
  have he : 2 * (x / ulp x) * ulp x = 2 * x := by
    field_simp [(ulp_pos x).ne']
  rw [he] at this
  exact this

/-- Rounding a non-positive number at most doubles it. -/
theorem two_mul_le_fl {x : ℚ} (h : x ≤ 0) : 2 * x ≤ fl x := by
  have := fl_le_two_mul (neg_nonneg.mpr h)
  rw [fl_neg] at this
  linarith

/-- A positive number lies below the top of its binade. -/
theorem lt_top_binade {x : ℚ} (h : 0 < x) : x < (2 : ℚ) ^ (expo x + 1) := by
  have h1 : x < ((2 : ℕ) : ℚ) ^ (Int.log 2 x + 1) := Int.lt_zpow_succ_log_self (by norm_num) x
  have h2 : Int.log 2 x + 1 ≤ expo x + 1 := by
    unfold expo; rw [abs_of_pos h]; have := le_max_left (Int.log 2 x) (-1022); omega
  have h3 : ((2 : ℕ) : ℚ) ^ (Int.log 2 x + 1) ≤ (2 : ℚ) ^ (expo x + 1) := by
    push_cast
    exact zpow_le_zpow_right₀ (by norm_num) h2
  linarith

/-- A positive number above the subnormal range lies above the bottom of its
binade. -/
theorem bot_binade_le {x : ℚ} (h : 0 < x) (he : -1022 < expo x) : (2 : ℚ) ^ expo x ≤ x := by
  have hlog : expo x = Int.log 2 x := by
    unfold expo at he ⊢
    rw [abs_of_pos h] at he ⊢
    rcases max_cases (Int.log 2 x) (-1022) with ⟨h1, _⟩ | ⟨h1, _⟩
    · exact h1
    · rw [h1] at he; omega
  rw [hlog]
  have := Int.zpow_log_le_self (b := 2) (r := x) (by norm_num) h
  simpa using this

/-- The exponent is monotone on positive numbers. -/
theorem expo_mono {x y : ℚ} (hx : 0 < x) (h : x ≤ y) : expo x ≤ expo y := by
  unfold expo
  rw [abs_of_pos hx, abs_of_pos (lt_of_lt_of_le hx h)]
  exact max_le_max (Int.log_mono_right hx h) le_rfl

/-- Products of powers of two. -/
theorem two_zpow_mul (a b : ℤ) : (2 : ℚ) ^ a * (2 : ℚ) ^ b = (2 : ℚ) ^ (a + b) :=
  (zpow_add₀ (by norm_num : (2 : ℚ) ≠ 0) a b).symm

/-- The top of the binade of `x` is `2 ^ 53` spacings up. -/
theorem top_mul_ulp (x : ℚ) : (((2 : ℤ) ^ 53 : ℤ) : ℚ) * ulp x = (2 : ℚ) ^ (expo x + 1) := by
  have c : (((2 : ℤ) ^ 53 : ℤ) : ℚ) = (2 : ℚ) ^ (53 : ℤ) := by norm_num
  rw [c, ulp, two_zpow_mul]
  congr 1
  ring

/-- The bottom of the binade of `x` is `2 ^ 52` spacings up. -/
theorem bot_mul_ulp (x : ℚ) : (((2 : ℤ) ^ 52 : ℤ) : ℚ) * ulp x = (2 : ℚ) ^ expo x := by
  have c : (((2 : ℤ) ^ 52 : ℤ) : ℚ) = (2 : ℚ) ^ (52 : ℤ) := by norm_num
  rw [c, ulp, two_zpow_mul]
  congr 1
  ring

/-- Rounding a positive number does not leave its binade upwards. -/
theorem fl_le_top {x : ℚ} (h : 0 < x) : fl x ≤ (2 : ℚ) ^ (expo x + 1) := by
  unfold fl
  have hu : ulp x = (2 : ℚ) ^ (expo x - 52) := rfl
  have hq : x / ulp x ≤ (((2 : ℤ) ^ 53 : ℤ) : ℚ) := by
    rw [div_le_iff₀ (ulp_pos x)]
    rw [top_mul_ulp]
    exact (lt_top_binade h).le
  have := rne_mono hq
  rw [rne_intCast] at this
  have hc : (rne (x / ulp x) : ℚ) ≤ (((2 : ℤ) ^ 53 : ℤ) : ℚ) := by exact_mod_cast this
  have := mul_le_mul_of_nonneg_right hc (ulp_pos x).le
  rw [top_mul_ulp] at this
  exact this

/-- Rounding a positive normal number does not leave its binade downwards. -/
theorem bot_le_fl {x : ℚ} (h : 0 < x) (he : -1022 < expo x) : (2 : ℚ) ^ expo x ≤ fl x := by
  unfold fl
  have hu : ulp x = (2 : ℚ) ^ (expo x - 52) := rfl
  have he2 : (((2 : ℤ) ^ 52 : ℤ) : ℚ) * ulp x = (2 : ℚ) ^ expo x := bot_mul_ulp x
  have hq : (((2 : ℤ) ^ 52 : ℤ) : ℚ) ≤ x / ulp x := by
    rw [le_div_iff₀ (ulp_pos x), he2]
    exact bot_binade_le h he
  have := rne_mono hq
  rw [rne_intCast] at this
  have hc : (((2 : ℤ) ^ 52 : ℤ) : ℚ) ≤ (rne (x / ulp x) : ℚ) := by exact_mod_cast this
  have := mul_le_mul_of_nonneg_right hc (ulp_pos x).le
  rw [he2] at this
  exact this

/-- Rounding is monotone above a positive number. -/
theorem fl_mono_pos {x y : ℚ} (hx : 0 < x) (h : x ≤ y) : fl x ≤ fl y := by
  have hy : 0 < y := lt_of_lt_of_le hx h
  rcases lt_or_eq_of_le (expo_mono hx h) with hlt | heq
  · have hlow : -1022 < expo y := by
      have : -1022 ≤ expo x := le_max_right _ _
      omega
    calc fl x ≤ (2 : ℚ) ^ (expo x + 1) := fl_le_top hx
      _ ≤ (2 : ℚ) ^ expo y := zpow_le_zpow_right₀ (by norm_num) (by omega)
      _ ≤ fl y := bot_le_fl hy hlow
  · exact fl_mono_same h heq

/-- Rounding to binary64 is monotone. -/
theorem fl_mono {x y : ℚ} (h : x ≤ y) : fl x ≤ fl y := by
  rcases lt_trichotomy 0 x with hx | hx | hx
  · exact fl_mono_pos hx h
  · rw [← hx, fl_zero]
    exact fl_nonneg (by rw [hx]; exact h)
  · rcases le_or_lt 0 y with hy | hy
    · exact le_trans (fl_nonpos hx.le) (fl_nonneg hy)
    · have := fl_mono_pos (neg_pos.mpr hy) (neg_le_neg h)
      rw [fl_neg, fl_neg] at this
      linarith


/-- The exponent of a number whose binade is known. -/
theorem expo_eq {x : ℚ} {e : ℤ} (he : -1022 ≤ e) (h1 : (2 : ℚ) ^ e ≤ |x|)
    (h2 : |x| < (2 : ℚ) ^ (e + 1)) : expo x = e := by
  have hpos : 0 < |x| := lt_of_lt_of_le (by positivity) h1
  have hle : e ≤ Int.log 2 |x| := by
    rw [← Int.zpow_le_iff_le_log (by norm_num) hpos]
    simpa using h1
  have hlt : Int.log 2 |x| < e + 1 := by
    rw [← Int.lt_zpow_iff_log_lt (by norm_num) hpos]
    simpa using h2
  unfold expo
  rw [max_eq_left (by omega)]
  omega

/-- Rounding, once the exponent and the rounded quotient are known. -/
theorem fl_eq {x : ℚ} {e n : ℤ} (he : expo x = e) (hn : rne (x / (2 : ℚ) ^ (e - 52)) = n) :
    fl x = (n : ℚ) * (2 : ℚ) ^ (e - 52) := by
  unfold fl ulp
  rw [he, hn]

/-- A whole number of spacings is a binary64 number. -/
theorem fl_of_int {x : ℚ} (n : ℤ) (h : x = (n : ℚ) * ulp x) : fl x = x := by
  unfold fl
  have : x / ulp x = (n : ℚ) := by
    rw [div_eq_iff (ulp_pos x).ne']
    exact h
  rw [this, rne_intCast]
  exact h.symm

/-- Below the top of the binade, rounding keeps the exponent. -/
theorem expo_fl {x : ℚ} (hx : 0 < x) (hy : 0 < fl x) (hlt : fl x < (2 : ℚ) ^ (expo x + 1)) :
    expo (fl x) = expo x := by
  have hlog : Int.log 2 (fl x) < expo x + 1 := by
    rw [← Int.lt_zpow_iff_log_lt (by norm_num) hy]
    simpa using hlt
  have hmin : -1022 ≤ expo x := le_max_right _ _
  rcases lt_or_eq_of_le hmin with hnorm | hsub
  · have hb := bot_le_fl hx hnorm
    exact expo_eq hmin (by rw [abs_of_pos hy]; exact hb) (by rw [abs_of_pos hy]; exact hlt)
  · have h' : expo x = -1022 := hsub.symm
    rw [h'] at hlog ⊢
    have : Int.log 2 (fl x) ≤ -1022 := by omega
    unfold expo
    rw [abs_of_pos hy, max_eq_right this]

/-- Rounding a positive number gives a binary64 number. -/
theorem fl_fl_pos {x : ℚ} (hx : 0 < x) : fl (fl x) = fl x := by
  rcases lt_or_eq_of_le (fl_nonneg hx.le) with hy | hy
  · rcases lt_or_eq_of_le (fl_le_top hx) with hlt | htop
    · have he := expo_fl hx hy hlt
      apply fl_of_int (rne (x / ulp x))
      have hu : ulp (fl x) = ulp x := by unfold ulp; rw [he]
      rw [hu]
      rfl
    · have hmin : -1022 ≤ expo x := le_max_right _ _
      have he : expo (fl x) = expo x + 1 := by
        apply expo_eq (by omega)
        · rw [abs_of_pos hy, htop]
        · rw [abs_of_pos hy, htop]
          exact zpow_lt_zpow_right₀ (by norm_num) (by omega)
      apply fl_of_int ((2 : ℤ) ^ 52)
      have hu : ulp (fl x) = (2 : ℚ) ^ (expo x + 1 - 52) := by unfold ulp; rw [he]
      rw [hu, htop]
      have c : (((2 : ℤ) ^ 52 : ℤ) : ℚ) = (2 : ℚ) ^ (52 : ℤ) := by norm_num
      rw [c, two_zpow_mul]
      congr 1
      ring
  · rw [← hy, fl_zero]

/-- Rounding twice is rounding once: the result of a rounding is a binary64
number. -/
theorem fl_fl (x : ℚ) : fl (fl x) = fl x := by
  rcases lt_trichotomy 0 x with hx | hx | hx
  · exact fl_fl_pos hx
  · rw [← hx, fl_zero, fl_zero]
  · have := fl_fl_pos (neg_pos.mpr hx)
    rw [fl_neg, fl_neg] at this
    linarith

/-- Rounding stays below a binary64 number that bounds the argument. -/
theorem fl_le_of_le {x y : ℚ} (h : x ≤ y) (hy : fl y = y) : fl x ≤ y := by
  have := fl_mono h
  rwa [hy] at this

/-- Rounding stays above a binary64 number that bounds the argument. -/
theorem le_fl_of_le {x y : ℚ} (h : x ≤ y) (hx : fl x = x) : x ≤ fl y := by
  have := fl_mono h
  rwa [hx] at this

/-- The number 20 is a binary64 number. -/
theorem fl_twenty : fl 20 = 20 := by
  have he : expo 20 = 4 := expo_eq (by norm_num) (by norm_num) (by norm_num)
  have hq : (20 : ℚ) / (2 : ℚ) ^ ((4 : ℤ) - 52) = ((20 * 2 ^ 48 : ℤ) : ℚ) := by
    norm_num [zpow_neg]
  rw [fl_eq he (by rw [hq, rne_intCast])]
  norm_num [zpow_neg]

/-- The number 1 is a binary64 number. -/
theorem fl_one : fl 1 = 1 := by
  have he : expo 1 = 0 := expo_eq (by norm_num) (by norm_num) (by norm_num)
  have hq : (1 : ℚ) / (2 : ℚ) ^ ((0 : ℤ) - 52) = ((2 ^ 52 : ℤ) : ℚ) := by
    norm_num [zpow_neg]
  rw [fl_eq he (by rw [hq, rne_intCast])]
  norm_num [zpow_neg]



/-- A quotient within one half of an integer rounds to it. -/
theorem rne_eq_of_abs_lt {q : ℚ} {n : ℤ} (h : |q - n| < 1 / 2) : rne q = n := by
  rw [abs_lt] at h
  rcases le_or_lt (n : ℚ) q with hle | hlt
  · have hf : ⌊q⌋ = n := by
      rw [Int.floor_eq_iff]
      constructor
      · exact hle
      · linarith [h.2]
    unfold rne
    rw [hf]
    rw [if_pos (by linarith [h.2])]
  · have hf : ⌊q⌋ = n - 1 := by
      rw [Int.floor_eq_iff]
      push_cast
      constructor <;> linarith [h.1]
    unfold rne
    rw [hf]
    push_cast
    rw [if_neg (by linarith [h.1]), if_pos (by linarith [h.1])]
    ring

/-- The value of the literal `0.05`. -/
theorem c05_eq : c05 = 3602879701896397 / 72057594037927936 := by
  unfold c05
  have he : expo (0.05 : ℚ) = -5 :=
    expo_eq (by norm_num) (by norm_num [zpow_neg, abs_of_pos]) (by norm_num [zpow_neg, abs_of_pos])
  have hq : rne ((0.05 : ℚ) / (2 : ℚ) ^ ((-5 : ℤ) - 52)) = 7205759403792794 := by
    apply rne_eq_of_abs_lt
    rw [abs_lt]
    constructor <;> norm_num [zpow_neg]
  rw [fl_eq he hq]
  norm_num [zpow_neg]

/-- The value of the literal `0.6`. -/
theorem c06_eq : c06 = 5404319552844595 / 9007199254740992 := by
  unfold c06
  have he : expo (0.6 : ℚ) = -1 :=
    expo_eq (by norm_num) (by norm_num [zpow_neg, abs_of_pos]) (by norm_num [zpow_neg, abs_of_pos])
  have hq : rne ((0.6 : ℚ) / (2 : ℚ) ^ ((-1 : ℤ) - 52)) = 5404319552844595 := by
    apply rne_eq_of_abs_lt
    rw [abs_lt]
    constructor <;> norm_num [zpow_neg]
  rw [fl_eq he hq]
  norm_num [zpow_neg]


/-- Rounding commutes with the absolute value. -/
theorem abs_fl (x : ℚ) : |fl x| = fl |x| := by
  rcases le_or_lt 0 x with h | h
  · rw [abs_of_nonneg h, abs_of_nonneg (fl_nonneg h)]
  · rw [abs_of_neg h, fl_neg, abs_of_nonpos (fl_nonpos h.le)]

/-- A real gap of at least 1 is never re-rolled. -/
theorem needsReroll_false_of_le (bar : Bar) (h : 1 ≤ |bar.height - bar.targetHeight|) :
    needsReroll bar = false := by
  unfold needsReroll
  rw [abs_fl]
  have := le_fl_of_le h fl_one
  simp only [decide_eq_false_iff_not, not_lt]
  exact this

/-- The cursor after one bar. -/
theorem stepBar64_cursor (H : ℚ) (rand : Nat → ℚ) (rng : Nat) (bar : Bar) :
    (stepBar64 H rand rng bar).2 = rng + (if needsReroll bar then 1 else 0) := by
  unfold stepBar64
  cases needsReroll bar <;> simp

/-- A frame keeps the number of bars. -/
theorem animateBars64_length (H : ℚ) (rand : Nat → ℚ) (bs : List Bar) (rng : Nat) :
    (animateBars64 H rand rng bs).1.length = bs.length := by
  induction bs generalizing rng with
  | nil => rfl
  | cons b rest ih => simp [animateBars64, ih]

/-- In a frame, the bar at index `i` is updated by `stepBar64` with the cursor
advanced by the number of re-rolls among the bars before it. -/
theorem animateBars64_getElem? (H : ℚ) (rand : Nat → ℚ) (bs : List Bar) (rng i : Nat) :
    (animateBars64 H rand rng bs).1[i]? =
      (bs[i]?).map (fun b => (stepBar64 H rand (rng + (bs.take i).countP needsReroll) b).1) := by
  induction bs generalizing rng i with
  | nil => simp [animateBars64]
  | cons b rest ih =>
    cases i with
    | zero => simp [animateBars64]
    | succ j =>
      simp only [animateBars64, List.getElem?_cons_succ, List.take_succ_cons, List.countP_cons]
      rw [ih, stepBar64_cursor]
      congr 1
      funext c
      congr 2
      omega


/-- The largest binary64 number below 1. -/
theorem fl_pred_one : fl (1 - 1 / 2 ^ 53) = 1 - 1 / 2 ^ 53 := by
  have he : expo ((1 : ℚ) - 1 / 2 ^ 53) = -1 :=
    expo_eq (by norm_num) (by norm_num [zpow_neg, abs_of_pos]) (by norm_num [zpow_neg, abs_of_pos])
  have hq : ((1 : ℚ) - 1 / 2 ^ 53) / (2 : ℚ) ^ ((-1 : ℤ) - 52) = ((2 ^ 53 - 1 : ℤ) : ℚ) := by
    norm_num [zpow_neg]
  rw [fl_eq he (by rw [hq, rne_intCast])]
  norm_num [zpow_neg]

/-- A real gap of at most `1 - 2 ^ -53` is always re-rolled. -/
theorem needsReroll_true_of_le (bar : Bar)
    (h : |bar.height - bar.targetHeight| ≤ 1 - 1 / 2 ^ 53) : needsReroll bar = true := by
  unfold needsReroll
  rw [abs_fl]
  have := fl_le_of_le h fl_pred_one
  simp only [decide_eq_true_eq]
  have h1 : (1 : ℚ) - 1 / 2 ^ 53 < 1 := by norm_num
  linarith

/-- The re-rolled target lies between 20 and the binary64 value of
`H * 0.6 + 20`. -/
theorem reroll_value_bounds (H r : ℚ) (hH : 0 ≤ H) (hr : 0 ≤ r ∧ r < 1) :
    20 ≤ fl (fl (r * fl (H * c06)) + 20) ∧
      fl (fl (r * fl (H * c06)) + 20) ≤ fl (fl (H * c06) + 20) := by
  have hc : (0 : ℚ) ≤ c06 := by rw [c06_eq]; norm_num
  have hm : 0 ≤ fl (H * c06) := fl_nonneg (mul_nonneg hH hc)
  have hrm : r * fl (H * c06) ≤ fl (H * c06) := by
    have := mul_le_mul_of_nonneg_right hr.2.le hm
    linarith
  have h1 : fl (r * fl (H * c06)) ≤ fl (H * c06) := fl_le_of_le hrm (fl_fl _)
  have h0 : 0 ≤ fl (r * fl (H * c06)) := fl_nonneg (mul_nonneg hr.1 hm)
  constructor
  · exact le_fl_of_le (by linarith) fl_twenty
  · exact fl_mono (by linarith)

/-- C8, amended: one `animate` frame in binary64 arithmetic, with drawable
height `H >= 0` and draws in `[0, 1)`, keeps every bar in place, and for the
bar at index `i`: its target is replaced exactly when the rounded difference
`height - targetHeight` has absolute value below 1 at the start of the frame
(never when the real gap is at least 1, always when it is at most
`1 - 2 ^ -53`), otherwise it is left unchanged; the replacement is
`draw * (H * 0.6) + 20` for the draw under the cursor, and it satisfies
`20 <= t <= H * 0.6 + 20`, the right-hand side computed in binary64. -/
theorem reroll_target_frame (L : Layout) (rand : Nat → ℚ) (s : EqState)
    (hH : 0 ≤ L.offsetHeight) (hr : ∀ n, 0 ≤ rand n ∧ rand n < 1) :
    (animate64 L rand s).bars.length = s.bars.length ∧
      ∀ (i : Nat) (b : Bar), s.bars[i]? = some b →
        ∃ b', (animate64 L rand s).bars[i]? = some b' ∧
          (1 ≤ |b.height - b.targetHeight| → b'.targetHeight = b.targetHeight) ∧
          (|b.height - b.targetHeight| ≤ 1 - 1 / 2 ^ 53 →
            b'.targetHeight =
              fl (fl (rand (s.rng + (s.bars.take i).countP needsReroll) *
                fl (L.offsetHeight * c06)) + 20)) ∧
          (|fl (b.height - b.targetHeight)| < 1 →
            b'.targetHeight =
                fl (fl (rand (s.rng + (s.bars.take i).countP needsReroll) *
                  fl (L.offsetHeight * c06)) + 20) ∧
              20 ≤ b'.targetHeight ∧
              b'.targetHeight ≤ fl (fl (L.offsetHeight * c06) + 20)) ∧
          (¬ |fl (b.height - b.targetHeight)| < 1 → b'.targetHeight = b.targetHeight) := by
  refine ⟨animateBars64_length _ _ _ _, ?_⟩
  intro i b hb
  have hget : (animate64 L rand s).bars[i]? =
      some (stepBar64 L.offsetHeight rand
        (s.rng + (s.bars.take i).countP needsReroll) b).1 := by
    show (animateBars64 L.offsetHeight rand s.rng s.bars).1[i]? = _
    rw [animateBars64_getElem?, hb]
    rfl
  have hyes : needsReroll b = true →
      (stepBar64 L.offsetHeight rand
        (s.rng + (s.bars.take i).countP needsReroll) b).1.targetHeight =
        fl (fl (rand (s.rng + (s.bars.take i).countP needsReroll) *
          fl (L.offsetHeight * c06)) + 20) := by
    intro h; simp [stepBar64, h]
  have hno : needsReroll b = false →
      (stepBar64 L.offsetHeight rand
        (s.rng + (s.bars.take i).countP needsReroll) b).1.targetHeight = b.targetHeight := by
    intro h; simp [stepBar64, h]
  refine ⟨_, hget, ?_, ?_, ?_, ?_⟩
  · intro h
    exact hno (needsReroll_false_of_le b h)
  · intro h
    exact hyes (needsReroll_true_of_le b h)
  · intro h
    have hn : needsReroll b = true := by unfold needsReroll; simpa using h
    rw [hyes hn]
    exact ⟨rfl, reroll_value_bounds _ _ hH (hr _)⟩
  · intro h
    have hn : needsReroll b = false := by unfold needsReroll; simpa using h
    exact hno hn


/-- Rounding to an integer moves by at most one half. -/
theorem abs_rne_sub_le (q : ℚ) : |(rne q : ℚ) - q| ≤ 1 / 2 := by
  have h1 : (⌊q⌋ : ℚ) ≤ q := Int.floor_le q
  have h2 : q < (⌊q⌋ : ℚ) + 1 := Int.lt_floor_add_one q
  rw [abs_le]
  unfold rne
  split_ifs with a b c
  · constructor <;> linarith
  · push_cast; constructor <;> linarith
  · have : q - ⌊q⌋ = 1 / 2 := le_antisymm (not_lt.mp b) (not_lt.mp a)
    constructor <;> linarith
  · push_cast
    have : q - ⌊q⌋ = 1 / 2 := le_antisymm (not_lt.mp b) (not_lt.mp a)
    constructor <;> linarith

/-- Rounding to binary64 moves by at most half a spacing. -/
theorem abs_fl_sub_le_ulp (x : ℚ) : |fl x - x| ≤ ulp x / 2 := by
  have hu := ulp_pos x
  have h := abs_rne_sub_le (x / ulp x)
  have e : fl x - x = ((rne (x / ulp x) : ℚ) - x / ulp x) * ulp x := by
    unfold fl
    field_simp
  rw [e, abs_mul, abs_of_pos hu]
  have := mul_le_mul_of_nonneg_right h hu.le
  linarith

/-- The rounding error of binary64: relative `2 ^ -53`, or `2 ^ -1075` in the
subnormal range. -/
theorem abs_fl_sub_le (x : ℚ) : |fl x - x| ≤ |x| / 2 ^ 53 + eta64 := by
  have heta : (0 : ℚ) ≤ eta64 := by unfold eta64; positivity
  rcases eq_or_ne x 0 with h0 | hne
  · rw [h0, fl_zero]; simp; exact heta
  · have hpos : 0 < |x| := abs_pos.mpr hne
    have hle := abs_fl_sub_le_ulp x
    have hu : ulp x = (2 : ℚ) ^ (expo x - 52) := rfl
    rcases le_or_lt (-1022) (Int.log 2 |x|) with hn | hs
    · have he : expo x = Int.log 2 |x| := by unfold expo; exact max_eq_left hn
      have hb : (2 : ℚ) ^ (Int.log 2 |x|) ≤ |x| := by
        have := Int.zpow_log_le_self (b := 2) (r := |x|) (by norm_num) hpos
        simpa using this
      have hu2 : ulp x = (2 : ℚ) ^ (Int.log 2 |x|) * (2 : ℚ) ^ (-52 : ℤ) := by
        rw [hu, he, two_zpow_mul]; congr 1
      have hc : (2 : ℚ) ^ (-52 : ℤ) = 1 / 2 ^ 52 := by norm_num [zpow_neg]
      rw [hu2, hc] at hle
      have : (2 : ℚ) ^ (Int.log 2 |x|) * (1 / 2 ^ 52) / 2 ≤ |x| / 2 ^ 53 := by
        have := mul_le_mul_of_nonneg_right hb (by norm_num : (0 : ℚ) ≤ 1 / 2 ^ 53)
        calc (2 : ℚ) ^ (Int.log 2 |x|) * (1 / 2 ^ 52) / 2
            = (2 : ℚ) ^ (Int.log 2 |x|) * (1 / 2 ^ 53) := by ring
          _ ≤ |x| * (1 / 2 ^ 53) := this
          _ = |x| / 2 ^ 53 := by ring
      linarith
    · have he : expo x = -1022 := by unfold expo; exact max_eq_right hs.le
      have hu3 : ulp x / 2 = eta64 := by
        rw [hu, he]; unfold eta64; norm_num [zpow_neg]
      rw [hu3] at hle
      have : (0 : ℚ) ≤ |x| / 2 ^ 53 := by positivity
      linarith

/-- Rounding at most doubles the magnitude. -/
theorem abs_fl_le (x : ℚ) : |fl x| ≤ 2 * |x| := by
  rw [abs_fl]
  exact fl_le_two_mul (abs_nonneg x)


/-- Easing upwards stays between the old height and the target. -/
theorem ease_up {h T : ℚ} (hh : fl h = h) (hT : fl T = T) (hle : h ≤ T) :
    h ≤ fl (h + fl (fl (T - h) * c05)) ∧ fl (h + fl (fl (T - h) * c05)) ≤ T := by
  have hc0 : (0 : ℚ) ≤ c05 := by rw [c05_eq]; norm_num
  have hc1 : c05 ≤ 1 / 4 := by rw [c05_eq]; norm_num
  have hd : 0 ≤ T - h := by linarith
  have hy0 : 0 ≤ fl (T - h) := fl_nonneg hd
  have hy2 : fl (T - h) ≤ 2 * (T - h) := fl_le_two_mul hd
  have hw0 : 0 ≤ fl (T - h) * c05 := mul_nonneg hy0 hc0
  have hw1 : fl (T - h) * c05 ≤ fl (T - h) * (1 / 4) := mul_le_mul_of_nonneg_left hc1 hy0
  have hz0 : 0 ≤ fl (fl (T - h) * c05) := fl_nonneg hw0
  have hz2 : fl (fl (T - h) * c05) ≤ 2 * (fl (T - h) * c05) := fl_le_two_mul hw0
  constructor
  · exact le_fl_of_le (by linarith) hh
  · exact fl_le_of_le (by linarith) hT

/-- Easing downwards stays between the target and the old height. -/
theorem ease_down {h T : ℚ} (hh : fl h = h) (hT : fl T = T) (hle : T ≤ h) :
    T ≤ fl (h + fl (fl (T - h) * c05)) ∧ fl (h + fl (fl (T - h) * c05)) ≤ h := by
  have hc0 : (0 : ℚ) ≤ c05 := by rw [c05_eq]; norm_num
  have hc1 : c05 ≤ 1 / 4 := by rw [c05_eq]; norm_num
  have hd : T - h ≤ 0 := by linarith
  have hy0 : fl (T - h) ≤ 0 := fl_nonpos hd
  have hy2 : 2 * (T - h) ≤ fl (T - h) := two_mul_le_fl hd
  have hw0 : fl (T - h) * c05 ≤ 0 := mul_nonpos_of_nonpos_of_nonneg hy0 hc0
  have hw1 : fl (T - h) * (1 / 4) ≤ fl (T - h) * c05 :=
    mul_le_mul_of_nonpos_left hc1 hy0
  have hz0 : fl (fl (T - h) * c05) ≤ 0 := fl_nonpos hw0
  have hz2 : 2 * (fl (T - h) * c05) ≤ fl (fl (T - h) * c05) := two_mul_le_fl hw0
  constructor
  · exact le_fl_of_le (by linarith) hT
  · exact fl_le_of_le (by linarith) hh

/-- The eased height differs from `h + 0.05 * (T - h)` by rounding only. -/
theorem ease_error (h T : ℚ) :
    |fl (h + fl (fl (T - h) * c05)) - (h + 0.05 * (T - h))| ≤
      (|h| + |T|) / 2 ^ 52 + 3 * eta64 := by
  have heta : (0 : ℚ) ≤ eta64 := by unfold eta64; positivity
  have hD : |T - h| ≤ |h| + |T| := by
    have := abs_sub T h
    linarith
  have hD0 := abs_nonneg (T - h)
  -- first rounding
  have e1 := abs_fl_sub_le (T - h)
  have y2 := abs_fl_le (T - h)
  -- the product
  have hw : |fl (T - h) * c05| = |fl (T - h)| * (3602879701896397 / 72057594037927936) := by
    rw [abs_mul, c05_eq, abs_of_pos (by norm_num : (0 : ℚ) < 3602879701896397 / 72057594037927936)]
  have e2 := abs_fl_sub_le (fl (T - h) * c05)
  rw [hw] at e2
  -- the sum
  have e3 := abs_fl_sub_le (h + fl (fl (T - h) * c05))
  have hs : |h + fl (fl (T - h) * c05)| ≤ |h| + |fl (fl (T - h) * c05)| := abs_add _ _
  -- unfold the absolute values into two-sided bounds
  have hwv : fl (T - h) * c05 = fl (T - h) * (3602879701896397 / 72057594037927936) := by
    rw [c05_eq]
  rw [hwv] at e2 e3 hs ⊢
  generalize fl (fl (T - h) * (3602879701896397 / 72057594037927936)) = z at *
  generalize fl (h + z) = r at *
  generalize fl (T - h) = y at *
  have hz : |z| ≤ |y| * (3602879701896397 / 72057594037927936) +
      (|y| * (3602879701896397 / 72057594037927936) / 2 ^ 53 + eta64) := by
    have t1 : |z| ≤ |z - y * (3602879701896397 / 72057594037927936)| +
        |y * (3602879701896397 / 72057594037927936)| := by
      have := abs_add (z - y * (3602879701896397 / 72057594037927936))
        (y * (3602879701896397 / 72057594037927936))
      simpa using this
    have t2 : |y * (3602879701896397 / 72057594037927936)| =
        |y| * (3602879701896397 / 72057594037927936) := by
      rw [abs_mul, abs_of_pos (by norm_num : (0 : ℚ) < 3602879701896397 / 72057594037927936)]
    linarith
  rw [abs_le] at e1 e2 e3 ⊢
  have hyl := neg_abs_le y
  have hyu := le_abs_self y
  have hdl := neg_abs_le (T - h)
  have hdu := le_abs_self (T - h)
  have hhn := abs_nonneg h
  have hTn := abs_nonneg T
  have hyn := abs_nonneg y
  have hzn := abs_nonneg z
  have hrn := abs_nonneg (h + z)
  obtain ⟨e1l, e1u⟩ := e1
  obtain ⟨e2l, e2u⟩ := e2
  obtain ⟨e3l, e3u⟩ := e3
  have h005 : (0.05 : ℚ) = 1 / 20 := by norm_num
  rw [h005]
  constructor
  · linarith
  · linarith


/-- Rounding evaluated from the binade and the nearest multiple of the
spacing. -/
theorem fl_eval {x : ℚ} (e n : ℤ) (he : -1022 ≤ e) (h1 : (2 : ℚ) ^ e ≤ |x|)
    (h2 : |x| < (2 : ℚ) ^ (e + 1)) (hn : |x / (2 : ℚ) ^ (e - 52) - n| < 1 / 2) :
    fl x = (n : ℚ) * (2 : ℚ) ^ (e - 52) :=
  fl_eq (expo_eq he h1 h2) (rne_eq_of_abs_lt hn)

/-- A quotient half way below an even integer rounds up to it. -/
theorem rne_tie_up {q : ℚ} {n : ℤ} (h : q = (n : ℚ) - 1 / 2) (hn : n % 2 = 0) : rne q = n := by
  have hf : ⌊q⌋ = n - 1 := by
    rw [Int.floor_eq_iff]
    push_cast
    constructor <;> linarith
  unfold rne
  rw [hf]
  push_cast
  rw [if_neg (by linarith), if_neg (by linarith), if_neg (by omega)]
  ring

/-- The rounded gap `80 - 46.75` of the sample bar (the state after the first
frame of a run whose draws are all 1/2: one bar of height 46.75 easing towards
80). -/
theorem fl_sample_gap : fl (80 - 187 / 4) = 133 / 4 := by
  have := fl_eval (x := (80 : ℚ) - 187 / 4) 5 4679521487814656 (by norm_num)
    (by norm_num [abs_of_pos]) (by norm_num [abs_of_pos])
    (by norm_num [zpow_neg])
  rw [this]; norm_num [zpow_neg]

/-- The rounded increment `33.25 * 0.05` of the sample bar. -/
theorem fl_sample_step :
    fl (133 / 4 * c05) = 3743617190251725 / 2251799813685248 := by
  rw [c05_eq]
  have := fl_eval
    (x := (133 : ℚ) / 4 * (3602879701896397 / 72057594037927936)) 0 7487234380503450
    (by norm_num) (by norm_num [abs_of_pos]) (by norm_num [abs_of_pos])
    (by rw [abs_lt]; constructor <;> norm_num [zpow_neg])
  rw [this]; norm_num [zpow_neg]

/-- The rounded new height of the sample bar. -/
theorem fl_sample_height :
    fl (187 / 4 + 3743617190251725 / 2251799813685248) =
      6813453655002317 / 140737488355328 := by
  have := fl_eval
    (x := (187 : ℚ) / 4 + 3743617190251725 / 2251799813685248) 5 6813453655002317
    (by norm_num) (by norm_num [abs_of_pos]) (by norm_num [abs_of_pos])
    (by rw [abs_lt]; constructor <;> norm_num [zpow_neg])
  rw [this]; norm_num [zpow_neg]


/-- The binary64 bar update does not read the `speed` field and hands it
on. -/
theorem stepBar64_speed (H : ℚ) (rand : Nat → ℚ) (rng : Nat) (bar : Bar) (v : ℚ) :
    stepBar64 H rand rng { bar with speed := v } =
      ({ (stepBar64 H rand rng bar).1 with speed := v }, (stepBar64 H rand rng bar).2) := by
  simp [stepBar64, needsReroll]

/-- A whole binary64 frame does not read the `speed` fields. -/
theorem animateBars64_speed (H : ℚ) (rand : Nat → ℚ) (f : Bar → ℚ) (bs : List Bar)
    (rng : Nat) :
    (animateBars64 H rand rng (bs.map (fun b => { b with speed := f b }))).2 =
        (animateBars64 H rand rng bs).2 ∧
      (animateBars64 H rand rng (bs.map (fun b => { b with speed := f b }))).1.map
          (fun b => (b.x, b.height, b.targetHeight, b.hue)) =
        (animateBars64 H rand rng bs).1.map
          (fun b => (b.x, b.height, b.targetHeight, b.hue)) := by
  induction bs generalizing rng with
  | nil => simp [animateBars64]
  | cons b rest ih =>
    simp only [List.map_cons, animateBars64, stepBar64_speed]
    exact ⟨(ih _).1, by rw [(ih _).2]⟩

/-- The bar a binary64 frame leaves at index `i`. -/
theorem animate64_getElem? (L : Layout) (rand : Nat → ℚ) (s : EqState) (i : Nat) (b : Bar)
    (hb : s.bars[i]? = some b) :
    (animate64 L rand s).bars[i]? =
      some (stepBar64 L.offsetHeight rand
        (s.rng + (s.bars.take i).countP needsReroll) b).1 := by
  show (animateBars64 L.offsetHeight rand s.rng s.bars).1[i]? = _
  rw [animateBars64_getElem?, hb]
  rfl

/-- The target a bar update leaves is a binary64 number when the old one
is. -/
theorem stepBar64_target_rep (H : ℚ) (rand : Nat → ℚ) (rng : Nat) (bar : Bar)
    (hT : fl bar.targetHeight = bar.targetHeight) :
    fl (stepBar64 H rand rng bar).1.targetHeight = (stepBar64 H rand rng bar).1.targetHeight := by
  unfold stepBar64
  cases needsReroll bar
  · simpa using hT
  · simp [fl_fl]

/-- The height a bar update leaves, in terms of the target it leaves. -/
theorem stepBar64_height (H : ℚ) (rand : Nat → ℚ) (rng : Nat) (bar : Bar) :
    (stepBar64 H rand rng bar).1.height =
      fl (bar.height +
        fl (fl ((stepBar64 H rand rng bar).1.targetHeight - bar.height) * c05)) := by
  simp [stepBar64]

/-- C9, amended: in one `animate` frame in binary64 arithmetic, for every bar
whose height and target are binary64 numbers, with `T` the bar's target after
that frame's re-roll check: the new height is `old + (T - old) * 0.05` with
every operation rounded; it differs from `old + 0.05 * (T - old)`, and the new
gap from 0.95 of the old gap, by at most `(|old| + |T|) / 2 ^ 52 + 3 * 2 ^ -1075`;
it lies between the old height and `T`, so it never overshoots and the gap
never grows; height and target are binary64 numbers again; and the frame
neither reads nor changes the `speed` field. -/
theorem ease_frame (L : Layout) (rand : Nat → ℚ) (s : EqState) :
    (∀ (i : Nat) (b : Bar), s.bars[i]? = some b →
        fl b.height = b.height → fl b.targetHeight = b.targetHeight →
        ∃ b', (animate64 L rand s).bars[i]? = some b' ∧
          b'.height = fl (b.height + fl (fl (b'.targetHeight - b.height) * c05)) ∧
          |b'.height - (b.height + 0.05 * (b'.targetHeight - b.height))| ≤
            (|b.height| + |b'.targetHeight|) / 2 ^ 52 + 3 * eta64 ∧
          |(b'.targetHeight - b'.height) - 0.95 * (b'.targetHeight - b.height)| ≤
            (|b.height| + |b'.targetHeight|) / 2 ^ 52 + 3 * eta64 ∧
          (b.height ≤ b'.targetHeight →
            b.height ≤ b'.height ∧ b'.height ≤ b'.targetHeight) ∧
          (b'.targetHeight ≤ b.height →
            b'.targetHeight ≤ b'.height ∧ b'.height ≤ b.height) ∧
          |b'.targetHeight - b'.height| ≤ |b'.targetHeight - b.height| ∧
          fl b'.height = b'.height ∧ fl b'.targetHeight = b'.targetHeight ∧
          b'.speed = b.speed) ∧
      (∀ f : Bar → ℚ,
        (animate64 L rand
            { s with bars := s.bars.map (fun b => { b with speed := f b }) }).bars.map
            (fun b => (b.x, b.height, b.targetHeight, b.hue)) =
          (animate64 L rand s).bars.map (fun b => (b.x, b.height, b.targetHeight, b.hue)) ∧
        (animate64 L rand
            { s with bars := s.bars.map (fun b => { b with speed := f b }) }).rng =
          (animate64 L rand s).rng) := by
  constructor
  · intro i b hb hh hT
    refine ⟨_, animate64_getElem? L rand s i b hb, ?_⟩
    generalize s.rng + (s.bars.take i).countP needsReroll = k
    have hrep := stepBar64_target_rep L.offsetHeight rand k b hT
    have hhe := stepBar64_height L.offsetHeight rand k b
    have hsp : (stepBar64 L.offsetHeight rand k b).1.speed = b.speed := by simp [stepBar64]
    generalize (stepBar64 L.offsetHeight rand k b).1 = b' at *
    have herr := ease_error b.height b'.targetHeight
    rw [← hhe] at herr
    have hup : b.height ≤ b'.targetHeight →
        b.height ≤ b'.height ∧ b'.height ≤ b'.targetHeight := by
      intro hle
      rw [hhe]
      exact ease_up hh hrep hle
    have hdown : b'.targetHeight ≤ b.height →
        b'.targetHeight ≤ b'.height ∧ b'.height ≤ b.height := by
      intro hle
      rw [hhe]
      exact ease_down hh hrep hle
    refine ⟨hhe, herr, ?_, hup, hdown, ?_, ?_, hrep, hsp⟩
    · have e : b'.targetHeight - b'.height - 0.95 * (b'.targetHeight - b.height) =
          -(b'.height - (b.height + 0.05 * (b'.targetHeight - b.height))) := by
        norm_num; ring
      rw [e, abs_neg]
      exact herr
    · rcases le_total b.height b'.targetHeight with hle | hle
      · obtain ⟨h1, h2⟩ := hup hle
        rw [abs_of_nonneg (by linarith), abs_of_nonneg (by linarith)]
        linarith
      · obtain ⟨h1, h2⟩ := hdown hle
        rw [abs_of_nonpos (by linarith), abs_of_nonpos (by linarith)]
        linarith
    · rw [hhe]
      exact fl_fl _
  · intro f
    exact ⟨(animateBars64_speed L.offsetHeight rand f s.bars s.rng).2,
      (animateBars64_speed L.offsetHeight rand f s.bars s.rng).1⟩


/-- The numbers 46.75 and 80 are binary64 numbers. -/
theorem fl_sample_inputs : fl (187 / 4) = 187 / 4 ∧ fl 80 = 80 := by
  constructor
  · have := fl_eval (x := (187 : ℚ) / 4) 5 6579477580611584 (by norm_num)
      (by norm_num [abs_of_pos]) (by norm_num [abs_of_pos]) (by norm_num [zpow_neg])
    rw [this]; norm_num [zpow_neg]
  · have := fl_eval (x := (80 : ℚ)) 6 5629499534213120 (by norm_num)
      (by norm_num [abs_of_pos]) (by norm_num [abs_of_pos]) (by norm_num [zpow_neg])
    rw [this]; norm_num [zpow_neg]

/-- C9, as stated, fails: the bar of height 46.75 and target 80 (the state
after the first frame when every draw is 1/2) gets, in binary64 arithmetic,
the height 6813453655002317 / 2 ^ 47, which is not `46.75 + 0.05 * 33.25`,
so that the new gap is not 0.95 of the old one. -/
theorem ease_not_exact :
    fl (187 / 4) = 187 / 4 ∧ fl 80 = 80 ∧
      (animate64 ⟨8, 100, 1⟩ (fun _ => 1 / 2)
          { EqState.blank with bars := [⟨0, 187 / 4, 80, 2, 260⟩] }).bars =
        [⟨0, 6813453655002317 / 140737488355328, 80, 2, 260⟩] ∧
      (6813453655002317 / 140737488355328 : ℚ) ≠ 187 / 4 + 0.05 * (80 - 187 / 4) ∧
      (80 - 6813453655002317 / 140737488355328 : ℚ) ≠ 0.95 * (80 - 187 / 4) := by
  have hno : needsReroll ⟨0, 187 / 4, 80, 2, 260⟩ = false :=
    needsReroll_false_of_le _ (by
      show (1 : ℚ) ≤ |187 / 4 - 80|
      rw [abs_of_neg (by norm_num)]
      norm_num)
  refine ⟨fl_sample_inputs.1, fl_sample_inputs.2, ?_, by norm_num, by norm_num⟩
  show (animateBars64 100 (fun _ => 1 / 2) 0 [⟨0, 187 / 4, 80, 2, 260⟩]).1 = _
  simp only [animateBars64, stepBar64, hno, Bool.false_eq_true, if_false]
  rw [fl_sample_gap, fl_sample_step, fl_sample_height]

/-- Witness for C9 (amended): the same bar; its new height lies between 46.75
and 80. -/
theorem ease_frame_witness :
    fl (187 / 4) = 187 / 4 ∧ fl 80 = 80 ∧
      ∃ b', (animate64 ⟨8, 100, 1⟩ (fun _ => 1 / 2)
          { EqState.blank with bars := [⟨0, 187 / 4, 80, 2, 260⟩] }).bars[0]? = some b' ∧
        ((187 / 4 : ℚ) ≤ b'.targetHeight →
          (187 / 4 : ℚ) ≤ b'.height ∧ b'.height ≤ b'.targetHeight) :=
  ⟨fl_sample_inputs.1, fl_sample_inputs.2,
    ((ease_frame ⟨8, 100, 1⟩ (fun _ => 1 / 2)
        { EqState.blank with bars := [⟨0, 187 / 4, 80, 2, 260⟩] }).1 0
        ⟨0, 187 / 4, 80, 2, 260⟩ rfl fl_sample_inputs.1 fl_sample_inputs.2).imp
      (fun _ h => ⟨h.1, h.2.2.2.2.1⟩)⟩

/-- Witness for C8 (amended): one bar with gap 1/2, drawable height 100, every
draw 7/8. -/
theorem reroll_target_frame_witness :
    (0 : ℚ) ≤ (Layout.mk 8 100 1).offsetHeight ∧
      |fl ((50 : ℚ) - 101 / 2)| < 1 ∧
      ∃ b', (animate64 ⟨8, 100, 1⟩ (fun _ => 7 / 8)
          { EqState.blank with bars := [⟨0, 50, 101 / 2, 1, 260⟩] }).bars[0]? = some b' ∧
        20 ≤ b'.targetHeight ∧ b'.targetHeight ≤ fl (fl (100 * c06) + 20) :=
  have hgap : |fl ((50 : ℚ) - 101 / 2)| < 1 := by
    have := needsReroll_true_of_le ⟨0, 50, 101 / 2, 1, 260⟩ (by
      show |(50 : ℚ) - 101 / 2| ≤ 1 - 1 / 2 ^ 53
      rw [abs_of_neg (by norm_num)]
      norm_num)
    exact of_decide_eq_true this
  ⟨by norm_num, hgap,
    ((reroll_target_frame ⟨8, 100, 1⟩ (fun _ => 7 / 8)
        { EqState.blank with bars := [⟨0, 50, 101 / 2, 1, 260⟩] } (by norm_num)
        (fun _ => ⟨by norm_num, by norm_num⟩)).2 0 ⟨0, 50, 101 / 2, 1, 260⟩ rfl).imp
      (fun _ h => ⟨h.1, (h.2.2.2.1 hgap).2⟩)⟩


/-- The bound of the re-rolled target is attained: with drawable height 100
and the draw `1 - 2 ^ -53` the target is exactly 80, the binary64 value of
`100 * 0.6 + 20`. -/
theorem reroll_bound_attained :
    fl (fl ((1 - 1 / 2 ^ 53) * fl (100 * c06)) + 20) = 80 ∧
      fl (fl (100 * c06) + 20) = 80 := by
  have hm : fl (100 * c06) = 60 := by
    rw [c06_eq]
    have := fl_eval (x := (100 : ℚ) * (5404319552844595 / 9007199254740992)) 5
      8444249301319680 (by norm_num) (by norm_num [abs_of_pos]) (by norm_num [abs_of_pos])
      (by rw [abs_lt]; constructor <;> norm_num [zpow_neg])
    rw [this]; norm_num [zpow_neg]
  have hp : fl ((1 - 1 / 2 ^ 53) * 60) = 8444249301319679 / 140737488355328 := by
    have := fl_eval (x := ((1 : ℚ) - 1 / 2 ^ 53) * 60) 5
      8444249301319679 (by norm_num) (by norm_num [abs_of_pos]) (by norm_num [abs_of_pos])
      (by rw [abs_lt]; constructor <;> norm_num [zpow_neg])
    rw [this]; norm_num [zpow_neg]
  have ht : fl (8444249301319679 / 140737488355328 + 20) = 80 := by
    have he : expo ((8444249301319679 : ℚ) / 140737488355328 + 20) = 6 :=
      expo_eq (by norm_num) (by norm_num [abs_of_pos]) (by norm_num [abs_of_pos])
    have hq : rne (((8444249301319679 : ℚ) / 140737488355328 + 20) /
        (2 : ℚ) ^ ((6 : ℤ) - 52)) = 5629499534213120 :=
      rne_tie_up (by norm_num [zpow_neg]) (by norm_num)
    rw [fl_eq he hq]; norm_num [zpow_neg]
  rw [hm, hp, ht]
  refine ⟨rfl, ?_⟩
  have e : (60 : ℚ) + 20 = 80 := by norm_num
  rw [e]
  exact fl_sample_inputs.2

/-- C7: after `initEqualizer`, a visibility-enter and a visibility-exit, with
the draws all 1/2, the bar's height is 3873/80 and the exit has left handle 1
pending; with no resize and no further visibility event the frame of handle 1
moves the height to 79987/1600, and it is from that height, not from the one
the bar had at the pause, that the next visibility-enter starts. -/
theorem pause_then_frame_moves_bars :
    ∃ s, initEqualizer (fun _ => 1 / 2) (some ⟨⟨8, 100, 1⟩, true⟩) EqState.blank = .ok s ∧
      (run (fun _ => 1 / 2) s
        [(⟨8, 100, 1⟩, visibilityEnter), (⟨8, 100, 1⟩, visibilityExit)]).frameQueue = [1] ∧
      (run (fun _ => 1 / 2) s
        [(⟨8, 100, 1⟩, visibilityEnter), (⟨8, 100, 1⟩, visibilityExit)]).bars.map
          Bar.height = [3873 / 80] ∧
      (run (fun _ => 1 / 2) s
        [(⟨8, 100, 1⟩, visibilityEnter), (⟨8, 100, 1⟩, visibilityExit),
          (⟨8, 100, 1⟩, Event.frame 1)]).bars.map Bar.height = [79987 / 1600] ∧
      (run (fun _ => 1 / 2) s
        [(⟨8, 100, 1⟩, visibilityEnter), (⟨8, 100, 1⟩, visibilityExit),
          (⟨8, 100, 1⟩, Event.frame 1), (⟨8, 100, 1⟩, visibilityEnter)]).bars.map
          Bar.height = [1647753 / 32000] := by
  have hb : barCount ⟨8, 100, 1⟩ = 1 := by
    unfold barCount; norm_num
  refine ⟨_, rfl, rfl, ?_, ?_, ?_⟩
  all_goals
    simp [run, step, visibilityEnter, visibilityExit, onIntersection, animate,
      cancelAnimationFrame, animateBars, stepBar, resizeCanvas, initBars, hb, mkBar,
      EqState.blank, List.range_succ]
    norm_num [abs_of_neg, abs_of_pos]


/-- The binary64 value of `100 * 0.6` is 60. -/
theorem fl_hundred_c06 : fl (100 * c06) = 60 := by
  rw [c06_eq]
  have := fl_eval (x := (100 : ℚ) * (5404319552844595 / 9007199254740992)) 5
    8444249301319680 (by norm_num) (by norm_num [abs_of_pos]) (by norm_num [abs_of_pos])
    (by rw [abs_lt]; constructor <;> norm_num [zpow_neg])
  rw [this]; norm_num [zpow_neg]

/-- With drawable height 100 the draw 7/8 gives, in binary64, the target
72.5. -/
theorem fl_sample_target : fl (fl (7 / 8 * fl (100 * c06)) + 20) = 145 / 2 := by
  rw [fl_hundred_c06]
  have h1 : fl ((7 : ℚ) / 8 * 60) = 105 / 2 := by
    have := fl_eval (x := (7 : ℚ) / 8 * 60) 5 7388718138654720 (by norm_num)
      (by norm_num [abs_of_pos]) (by norm_num [abs_of_pos]) (by norm_num [zpow_neg])
    rw [this]; norm_num [zpow_neg]
  rw [h1]
  have := fl_eval (x := (105 : ℚ) / 2 + 20) 6 5101733952880640 (by norm_num)
    (by norm_num [abs_of_pos]) (by norm_num [abs_of_pos]) (by norm_num [zpow_neg])
  rw [this]; norm_num [zpow_neg]

/-- C8, as stated, fails: with drawable height 100 a bar whose gap is 1/2 is
re-rolled to a target that is not below `0.6 * 100 = 60`: to 74 for the draw
9/10 in exact arithmetic, and to 72.5 for the draw 7/8 by a whole frame in
binary64 arithmetic. -/
theorem reroll_target_not_below_sixty_percent :
    |(50 : ℚ) - 101 / 2| < 1 ∧ (0 : ℚ) ≤ 9 / 10 ∧ (9 / 10 : ℚ) < 1 ∧
      (stepBar 100 (fun _ => 9 / 10) 0 ⟨0, 50, 101 / 2, 1, 260⟩).1.targetHeight = 74 ∧
      ¬ ((stepBar 100 (fun _ => 9 / 10) 0 ⟨0, 50, 101 / 2, 1, 260⟩).1.targetHeight
          < 0.6 * 100) ∧
      (animate ⟨8, 100, 1⟩ (fun _ => 9 / 10)
          { EqState.blank with bars := [⟨0, 50, 101 / 2, 1, 260⟩] }).bars.map
          Bar.targetHeight = [74] ∧
      (animate64 ⟨8, 100, 1⟩ (fun _ => 7 / 8)
          { EqState.blank with bars := [⟨0, 50, 101 / 2, 1, 260⟩] }).bars.map
          Bar.targetHeight = [145 / 2] ∧
      ¬ ((145 / 2 : ℚ) < 0.6 * 100) := by
  have hgap : |(50 : ℚ) - 101 / 2| < 1 := by rw [abs_lt]; constructor <;> norm_num
  have ht : (stepBar 100 (fun _ => 9 / 10) 0 ⟨0, 50, 101 / 2, 1, 260⟩).1.targetHeight = 74 := by
    rw [stepBar_reroll 100 (fun _ => 9 / 10) 0 ⟨0, 50, 101 / 2, 1, 260⟩ hgap]; norm_num
  have hyes : needsReroll ⟨0, 50, 101 / 2, 1, 260⟩ = true :=
    needsReroll_true_of_le _ (by
      show |(50 : ℚ) - 101 / 2| ≤ 1 - 1 / 2 ^ 53
      rw [abs_of_neg (by norm_num)]
      norm_num)
  refine ⟨hgap, by norm_num, by norm_num, ht, ?_, ?_, ?_, by norm_num⟩
  · rw [ht]; norm_num
  · show (animateBars 100 (fun _ => 9 / 10) 0 [⟨0, 50, 101 / 2, 1, 260⟩]).1.map
        Bar.targetHeight = [74]
    simp only [animateBars, List.map]
    rw [ht]
  · show (animateBars64 100 (fun _ => 7 / 8) 0 [⟨0, 50, 101 / 2, 1, 260⟩]).1.map
        Bar.targetHeight = [145 / 2]
    simp only [animateBars64, stepBar64, hyes, if_true, List.map]
    rw [fl_sample_target]


/-- The binary64 frame schedules exactly as the exact one: the two differ in
the numbers they compute only. -/
theorem animate64_scheduling (L : Layout) (rand : Nat → ℚ) (s : EqState) :
    (animate64 L rand s).animationId = (animate L rand s).animationId ∧
      (animate64 L rand s).frameQueue = (animate L rand s).frameQueue ∧
      (animate64 L rand s).nextFrameHandle = (animate L rand s).nextFrameHandle ∧
      (animate64 L rand s).resizeTimeout = (animate L rand s).resizeTimeout ∧
      (animate64 L rand s).timerQueue = (animate L rand s).timerQueue ∧
      (animate64 L rand s).animateCalls = (animate L rand s).animateCalls ∧
      (animate64 L rand s).bars.length = (animate L rand s).bars.length := by
  refine ⟨rfl, rfl, rfl, rfl, rfl, rfl, ?_⟩
  show (animateBars64 L.offsetHeight rand s.rng s.bars).1.length =
    (animateBars L.offsetHeight rand s.rng s.bars).1.length
  rw [animateBars64_length]
  generalize s.rng = k
  induction s.bars generalizing k with
  | nil => rfl
  | cons b rest ih =>
    simp only [animateBars, List.length_cons]
    rw [← ih]

end SomaRhythm
